import Mathlib

/-!
Shallow embedding of `qcodes/data/data_array.py` (class `DataArray`).

The DataArray is a shape-tracked numeric buffer with modification tracking
(a single contiguous dirty range in flat row-major index space), a save
cursor (`last_saved_index`) and a sync cursor (`synced_index`).

Modelling conventions:
  * numpy float values are modelled by `PyFloat` (either NaN or a rational);
    the code only stores and moves values, it never computes with them.
  * a numpy ndarray is modelled by `NdArr`: its shape plus its flat
    row-major element list.
  * Python `None`-able attributes are `Option`s; the lazily created
    `synced_index` attribute is `none` while the attribute does not exist.
  * Python exceptions: operations that can raise return
    `Option PyErr × DataArray`, the returned state being the object state
    at the moment the exception propagates (Python mutates in place, so a
    mid-method exception leaves earlier field assignments visible).
  * metadata-only fields of the Python class (name, label, units, array_id,
    snapshot plumbing, the DataSet back-reference) are not modelled: no
    tracked behavior reads them.
-/

/-- A numpy float value: NaN (the "cleared" sentinel) or an actual number. -/
inductive PyFloat
  | nan
  | val (q : Rat)
deriving DecidableEq, Repr

/-- Python exception classes raised by the modelled code paths. -/
inductive PyErr
  | valueError
  | typeError
  | indexError
  | runtimeError
  | attributeError
  | zeroDivisionError
deriving DecidableEq, Repr

/-- A reference stored in `set_arrays`: the array itself (the self-reference
made by `nest` when no set array is supplied) or some other array,
identified by an opaque id. -/
inductive SetRef
  | selfRef
  | ref (id : Nat)
deriving DecidableEq, Repr

/-- A numpy ndarray: its shape (outermost dimension first) and its elements
in flat row-major order. -/
structure NdArr where
  ashape : List Nat
  flat : List PyFloat
deriving DecidableEq, Repr

/-- `ndarray.size`: the total element count, the product of the shape. -/
def NdArr.size (nd : NdArr) : Nat := nd.ashape.prod

/-- The state of a `DataArray` (the fields the tracked behavior reads or
writes; see the module comment for the omitted metadata fields). -/
structure DataArray where
  shape : Option (List Nat)
  ndarray : Option NdArr
  set_arrays : List SetRef
  action_indices : List Int
  is_setpoint : Bool
  modified_range : Option (Int × Int)
  last_saved_index : Option Int
  synced_index : Option Int
  preset : Bool
  min_indices : List Int
  max_indices : List Int
deriving DecidableEq, Repr

/-- The result dict of `get_changes`. -/
structure Changes where
  start : Int
  stop : Int
  vals : List PyFloat
deriving DecidableEq, Repr

/-- One entry of a numpy-style index expression: a plain integer or a slice
with optional start/stop/step. -/
inductive LoopIndex
  | int (i : Int)
  | slc (start stop step : Option Int)
deriving DecidableEq, Repr

/-- The `loop_indices` argument of `DataArray.__setitem__`: a single
non-iterable index (plain int or bare slice) or an iterable (tuple) of
indices. -/
inductive Indices
  | single (ix : LoopIndex)
  | tuple (ixs : List LoopIndex)
deriving DecidableEq, Repr

/-- The list of index entries denoted by a `loop_indices` argument
(`__setitem__` wraps a non-iterable argument in a one-element list). -/
def ixList : Indices → List LoopIndex
  | .single l => [l]
  | .tuple ls => ls

/-- CPython slice resolution, `lower` bound: -1 for a negative step, else 0. -/
def sliceLower (step : Int) : Int :=
  if step < 0 then -1 else 0

/-- CPython slice resolution, `upper` bound: `length - 1` for a negative
step, else `length`. -/
def sliceUpper (step : Int) (length : Nat) : Int :=
  if step < 0 then (length : Int) - 1 else (length : Int)

/-- CPython slice resolution of one endpoint: the default when absent, else
the value clamped into `[lower, upper]` after adding `length` to a negative
value. -/
def sliceResolve (x? : Option Int) (dflt lower upper : Int) (length : Nat) : Int :=
  match x? with
  | none => dflt
  | some s => if s < 0 then max (s + (length : Int)) lower else min s upper

/-- Python `slice.indices(length)`: resolve optional start/stop/step against
a dimension length, clamping exactly as CPython does (the `lower`/`upper`
bounds and endpoint clamping above). Raises ValueError on step 0; the start
default is `upper` for a negative step and `lower` otherwise, the stop
default the reverse. -/
def sliceIndices (start? stop? step? : Option Int) (length : Nat) : Except PyErr (Int × Int × Int) :=
  if step? = some 0 then .error .valueError
  else
    .ok (sliceResolve start?
           (if step?.getD 1 < 0 then sliceUpper (step?.getD 1) length
            else sliceLower (step?.getD 1))
           (sliceLower (step?.getD 1)) (sliceUpper (step?.getD 1) length) length,
         sliceResolve stop?
           (if step?.getD 1 < 0 then sliceLower (step?.getD 1)
            else sliceUpper (step?.getD 1) length)
           (sliceLower (step?.getD 1)) (sliceUpper (step?.getD 1) length) length,
         step?.getD 1)

/-- Number of elements of Python `range(start, stop, step)` (`step ≠ 0`). -/
def rangeLen (start stop step : Int) : Nat :=
  if 0 < step then ((stop - start + step - 1).fdiv step).toNat
  else ((start - stop - step - 1).fdiv (-step)).toNat

/-- The elements of Python `range(start, stop, step)` in order. -/
def rangeList (start stop step : Int) : List Int :=
  (List.range (rangeLen start stop step)).map (fun (k : Nat) => start + step * (k : Int))

/-- Row-major linearization with an accumulator: the fold
`acc ↦ acc * dim + index` over paired index/dimension lists. -/
def rowMajorAux (acc : Int) : List Int → List Nat → Int
  | [], _ => acc
  | _, [] => acc
  | i :: is, d :: ds => rowMajorAux (acc * d + i) is ds

/-- Row-major (outer-to-inner) conversion of a multi-index to a flat index. -/
def rowMajorFlat (ixs : List Int) (shape : List Nat) : Int := rowMajorAux 0 ixs shape

/-- `np.ravel_multi_index(indices, shape)`: row-major flat index; raises
ValueError unless the lengths match and every entry is within `[0, dim)`. -/
def ravelMultiIndex (indices : List Int) (shape : List Nat) : Except PyErr Int :=
  if indices.length = shape.length then
    if (indices.zip shape).all (fun p => decide (0 ≤ p.1) && decide (p.1 < (p.2 : Int))) then
      .ok (rowMajorFlat indices shape)
    else .error .valueError
  else .error .valueError

/-- `DataArray.flat_index(indices, index_fill)`: pad `indices` with the tail
of `index_fill` when it has fewer entries than the array has dimensions,
then ravel. A `None` shape makes the length test raise (TypeError). -/
def flatIndex (indices fill : List Int) (shape? : Option (List Nat)) : Except PyErr Int :=
  match shape? with
  | none => .error .typeError
  | some shape =>
    let padded := if indices.length < shape.length then indices ++ fill.drop indices.length else indices
    ravelMultiIndex padded shape

/-- `DataArray._update_modified_range(low, high)`: expand the dirty range to
cover `[low, high]`, or set it directly when it was empty. -/
def updateModifiedRange (low high : Int) (st : DataArray) : DataArray :=
  match st.modified_range with
  | some (lo, hi) => { st with modified_range := some (min lo low, max hi high) }
  | none => { st with modified_range := some (low, high) }

/-- `DataArray.mark_saved(last_saved_index)`: clear the dirty range when the
cursor reaches its upper bound, shrink its lower bound otherwise, and record
the cursor unconditionally. -/
def markSaved (i : Int) (st : DataArray) : DataArray :=
  let st1 :=
    match st.modified_range with
    | some (lo, hi) =>
      if hi ≤ i then { st with modified_range := none }
      else { st with modified_range := some (max lo (i + 1), hi) }
    | none => st
  { st1 with last_saved_index := some i }

/-- `DataArray.clear_save()`: re-expand the dirty range to cover everything
up to the recorded save cursor, then unset the cursor. -/
def clearSave (st : DataArray) : DataArray :=
  let st1 :=
    match st.last_saved_index with
    | some lsi => updateModifiedRange 0 lsi st
    | none => st
  { st1 with last_saved_index := none }

/-- `DataArray._set_index_bounds()`: per-dimension minimum (0) and maximum
(dim − 1) index fills, recomputed from the current shape. -/
def setIndexBounds (st : DataArray) : DataArray :=
  let sh := st.shape.getD []
  { st with min_indices := sh.map (fun _ => (0 : Int)),
            max_indices := sh.map (fun (d : Nat) => (d : Int) - 1) }

/-- The shared tail of the preset branch of `init_data`: store the data as
the buffer, mark preset, mark the whole buffer modified, recompute bounds. -/
def initPreset (data : NdArr) (st : DataArray) : Option PyErr × DataArray :=
  (none, setIndexBounds { st with ndarray := some data, preset := true,
                                  modified_range := some (0, (data.size : Int) - 1) })

/-- `DataArray.init_data(data)`: adopt or check preset data, no-op when a
matching buffer exists, otherwise allocate a NaN-filled buffer of `shape`
(allocation plus `clear()`; values are already floats in this model, so the
dtype coercion of `clear` is a no-op). -/
def initData (data? : Option NdArr) (st : DataArray) : Option PyErr × DataArray :=
  match data? with
  | some data =>
    match st.shape with
    | none => initPreset data { st with shape := some data.ashape }
    | some sh =>
      if data.ashape ≠ sh then (some .valueError, st)
      else initPreset data st
  | none =>
    match st.ndarray with
    | some nd =>
      -- early return: the already-initialized branch skips _set_index_bounds
      if some nd.ashape ≠ st.shape then (some .valueError, st) else (none, st)
    | none =>
      match st.shape with
      | none => (some .typeError, st)
      | some sh => (none, setIndexBounds { st with ndarray := some ⟨sh, List.replicate sh.prod .nan⟩ })

/-- The `DataArray` constructor, restricted to the modelled fields: record
shape and bookkeeping defaults, run `init_data` when preset data is given,
else default a missing shape to the empty tuple. -/
def mkDataArray (shape? : Option (List Nat)) (sets : List SetRef) (acts : List Int)
    (setp : Bool) (preset? : Option NdArr) : Option PyErr × DataArray :=
  let st : DataArray :=
    { shape := shape?, ndarray := none, set_arrays := sets, action_indices := acts,
      is_setpoint := setp, modified_range := none, last_saved_index := none,
      synced_index := none, preset := false, min_indices := [], max_indices := [] }
  match preset? with
  | some d => initData (some d) st
  | none =>
    match shape? with
    | none => (none, { st with shape := some [] })
    | some _ => (none, st)

/-- `DataArray.nest(size, action_index, set_array)`: add one outer dimension.
Fails on an initialized non-preset buffer, and when no set array is given
while one is already chained. Prepends to shape / action_indices /
set_arrays; a preset buffer is reallocated with the old data copied into
every slice of the new outer dimension and the whole buffer marked modified.
(The `preset ∧ no buffer` branch is unreachable through the modelled
operations: `init_data` is the only place that sets `preset`, and it always
installs a buffer; it is mapped to an error here.) -/
def nest (size : Nat) (actionIndex : Option Int) (setArray : Option SetRef)
    (st : DataArray) : Option PyErr × DataArray :=
  if st.ndarray.isSome ∧ st.preset = false then (some .runtimeError, st)
  else if setArray.isNone ∧ st.set_arrays ≠ [] then (some .typeError, st)
  else
    let sa := setArray.getD .selfRef
    match st.shape with
    | none => (some .typeError, st)
    | some sh =>
      let st1 := { st with shape := some (size :: sh) }
      let st2 :=
        match actionIndex with
        | some ai => { st1 with action_indices := ai :: st1.action_indices }
        | none => st1
      let st3 := { st2 with set_arrays := sa :: st2.set_arrays }
      if st3.preset then
        match st3.ndarray with
        | none => (some .attributeError, st3)
        | some inner =>
          let newNd : NdArr := ⟨size :: sh, List.flatten (List.replicate size inner.flat)⟩
          (none, setIndexBounds { st3 with ndarray := some newNd,
                                           modified_range := some (0, (newNd.size : Int) - 1) })
      else (none, st3)

/-- A theorem bundle sanity definition: the highest flat index with known
data, as computed at the top of `get_changes`. -/
def latestIndex (st : DataArray) : Int :=
  let base := st.last_saved_index.getD (-1)
  match st.modified_range with
  | some (_, hi) => max base hi
  | none => base

/-- Read the buffer element at flat index `i`
(`self.ndarray[np.unravel_index(i, shape)]`): `unravel_index` raises unless
`0 ≤ i < size`; a missing buffer raises on attribute access. -/
def readFlat (nd? : Option NdArr) (i : Int) : Except PyErr PyFloat :=
  match nd? with
  | none => .error .typeError
  | some nd =>
    if 0 ≤ i ∧ i < (nd.size : Int) then .ok (nd.flat.getD i.toNat .nan)
    else .error .valueError

/-- Write the buffer element at flat index `i`, with the same bounds
behavior as `readFlat`. -/
def writeFlat (nd? : Option NdArr) (i : Int) (v : PyFloat) : Except PyErr NdArr :=
  match nd? with
  | none => .error .attributeError
  | some nd =>
    if 0 ≤ i ∧ i < (nd.size : Int) then .ok { nd with flat := nd.flat.set i.toNat v }
    else .error .valueError

/-- Left-to-right effectful map for `Except`: the list comprehension of
`get_changes` evaluates its reads in order and the first exception
propagates. -/
def mapExcept (f : Int → Except PyErr PyFloat) : List Int → Except PyErr (List PyFloat)
  | [] => .ok []
  | i :: rest =>
    match f i with
    | .error e => .error e
    | .ok v =>
      match mapExcept f rest with
      | .error e => .error e
      | .ok vs => .ok (v :: vs)

/-- The pure body of `get_changes(synced_index)`: compute the high-water
mark, read the run of values above `synced_index`, and return the start/stop
bounds with the values, or nothing when the run is empty. -/
def getChangesPayload (syncedIx : Int) (st : DataArray) : Option PyErr × Option Changes :=
  match mapExcept (readFlat st.ndarray) (rangeList (syncedIx + 1) (latestIndex st + 1) 1) with
  | .error e => (some e, none)
  | .ok vals =>
    if vals.isEmpty then (none, none)
    else (none, some ⟨syncedIx + 1, latestIndex st, vals⟩)

/-- `DataArray.get_changes(synced_index)`: the method body contains no
assignment to `self`, so the state is returned unchanged. -/
def getChanges (syncedIx : Int) (st : DataArray) : (Option PyErr × Option Changes) × DataArray :=
  (getChangesPayload syncedIx st, st)

/-- The write loop of `apply_changes`: write `vals` one by one at flat
positions `start + k, start + k + 1, …`, then set the sync cursor to `stop`.
A failing write propagates with the earlier writes already applied. -/
def applyChangesGo (start stop : Int) (k : Nat) : List PyFloat → DataArray → Option PyErr × DataArray
  | [], st => (none, { st with synced_index := some stop })
  | v :: rest, st =>
    match writeFlat st.ndarray (start + k) v with
    | .error e => (some e, st)
    | .ok nd => applyChangesGo start stop (k + 1) rest { st with ndarray := some nd }

/-- `DataArray.apply_changes(start, stop, vals)`. -/
def applyChanges (start stop : Int) (vals : List PyFloat) (st : DataArray) : Option PyErr × DataArray :=
  applyChangesGo start stop 0 vals st

/-- `DataArray.fraction_complete()`: `0.0` with no buffer; otherwise
`(1 + max of the set cursors and -1) / size`. An empty buffer divides by
zero (modelled as an error: the rationals have no NaN/exception value). -/
def fractionComplete (st : DataArray) : Except PyErr Rat :=
  match st.ndarray with
  | none => .ok 0
  | some nd =>
    let a : Int := match st.last_saved_index with | some v => max (-1) v | none => -1
    let b : Int := match st.modified_range with | some (_, hi) => max a hi | none => a
    let c : Int := match st.synced_index with | some v => max b v | none => b
    if nd.size = 0 then .error .zeroDivisionError
    else .ok (((c + 1 : Int) : Rat) / ((nd.size : Int) : Rat))

/-- The slice-resolution loop of `__setitem__`: walk the explicit index
entries, pairing entry `k` with dimension `k`; a plain int contributes
`(i, i)`, a slice contributes its resolved start and the code's
last-position formula `start + ((stop - start - 1) // step) * step`
(floor division, as in Python). A slice beyond the number of dimensions
raises IndexError; a slice against a `None` shape raises TypeError. -/
def resolveMinMaxAux (shape? : Option (List Nat)) : List LoopIndex → Nat → Except PyErr (List (Int × Int))
  | [], _ => .ok []
  | .int i :: rest, k =>
    match resolveMinMaxAux shape? rest (k + 1) with
    | .error e => .error e
    | .ok l => .ok ((i, i) :: l)
  | .slc a b c :: rest, k =>
    match shape? with
    | none => .error .typeError
    | some shape =>
      match shape.get? k with
      | none => .error .indexError
      | some d =>
        match sliceIndices a b c d with
        | .error e => .error e
        | .ok (start, stop, step) =>
          match resolveMinMaxAux shape? rest (k + 1) with
          | .error e => .error e
          | .ok l => .ok ((start, start + ((stop - start - 1).fdiv step) * step) :: l)

/-- Per-entry minimum and maximum addressed positions of the explicit index
entries, as `__setitem__` computes them before flattening. -/
def resolveMinMax (ixs : List LoopIndex) (shape? : Option (List Nat)) : Except PyErr (List (Int × Int)) :=
  resolveMinMaxAux shape? ixs 0

/-- A value assigned by `__setitem__`: a scalar (which numpy broadcasts over
any addressed region) or a one-dimensional array of values. This models the
subset of numpy value shapes the code is exercised with here; a
one-dimensional value must match a one-dimensional addressed region
exactly, anything else fails to broadcast (ValueError). -/
inductive PyVal
  | scalar (v : PyFloat)
  | arr (vs : List PyFloat)
deriving DecidableEq, Repr

/-- Resolve the explicit index entries of a numpy assignment target against
the buffer shape: for each dimension, the list of addressed positions and
whether the dimension survives into the region shape (slices keep the
dimension, plain ints drop it); dimensions beyond the explicit entries are
addressed whole. A plain int is normalized (`i + dim` when negative) and
bounds-checked; more entries than dimensions raises IndexError. -/
def regionPositionsAux : List LoopIndex → List Nat → Except PyErr (List (Bool × List Int))
  | [], ds => .ok (ds.map (fun d => (true, (List.range d).map (fun (p : Nat) => (p : Int)))))
  | _ :: _, [] => .error .indexError
  | .int i :: rest, d :: ds =>
    let j := if i < 0 then i + d else i
    if 0 ≤ j ∧ j < (d : Int) then
      match regionPositionsAux rest ds with
      | .error e => .error e
      | .ok l => .ok ((false, [j]) :: l)
    else .error .indexError
  | .slc a b c :: rest, d :: ds =>
    match sliceIndices a b c d with
    | .error e => .error e
    | .ok (start, stop, step) =>
      match regionPositionsAux rest ds with
      | .error e => .error e
      | .ok l => .ok ((true, rangeList start stop step) :: l)

/-- Row-major strides of a shape: the stride of each dimension is the
product of the dimensions inside it. -/
def strides : List Nat → List Nat
  | [] => []
  | _ :: ds => ds.prod :: strides ds

/-- All flat indices addressed by per-dimension position lists, in row-major
order of the addressed region. -/
def cartesianFlats (pls : List (List Int)) (strs : List Nat) : List Int :=
  (pls.zip strs).foldl (fun acc p => acc.flatMap (fun a => p.1.map (fun q => a + q * (p.2 : Int)))) [0]

/-- The numpy buffer assignment `self.ndarray[loop_indices] = value`:
resolve the addressed region, check that the value broadcasts to it
(scalars always do; a one-dimensional value needs a one-dimensional region
of the same length), and write the values elementwise in row-major order. -/
def ndarraySetItem (ixs : List LoopIndex) (v : PyVal) (nd? : Option NdArr) : Except PyErr NdArr :=
  match nd? with
  | none => .error .typeError
  | some nd =>
    match regionPositionsAux ixs nd.ashape with
    | .error e => .error e
    | .ok pls =>
      let regionShape := (pls.filter (fun p => p.1)).map (fun p => p.2.length)
      let flats := cartesianFlats (pls.map (fun p => p.2)) (strides nd.ashape)
      match v with
      | .scalar x => .ok { nd with flat := flats.foldl (fun f i => f.set i.toNat x) nd.flat }
      | .arr vs =>
        if regionShape = [vs.length] then
          .ok { nd with flat := (flats.zip vs).foldl (fun f p => f.set p.1.toNat p.2) nd.flat }
        else .error .valueError

/-- `DataArray.__setitem__(loop_indices, value)`: resolve the addressed
region to per-dimension min/max positions, flatten both (with the
per-dimension fills for unaddressed dimensions), expand the modified range,
and only then perform the buffer write. A failure while resolving or
flattening propagates with the state untouched; a failure of the buffer
write itself propagates with the modified range already expanded. -/
def setItem (ix : Indices) (v : PyVal) (st : DataArray) : Option PyErr × DataArray :=
  let ixs := ixList ix
  match resolveMinMax ixs st.shape with
  | .error e => (some e, st)
  | .ok pairs =>
    match flatIndex (pairs.map (fun p => p.1)) st.min_indices st.shape with
    | .error e => (some e, st)
    | .ok minLi =>
      match flatIndex (pairs.map (fun p => p.2)) st.max_indices st.shape with
      | .error e => (some e, st)
      | .ok maxLi =>
        let st1 := updateModifiedRange minLi maxLi st
        match ndarraySetItem ixs v st1.ndarray with
        | .error e => (some e, st1)
        | .ok nd => (none, { st1 with ndarray := some nd })

/-- Sequential overwrite of a flat buffer: write the values at consecutive
positions beginning at `a` (the shape of the writes `apply_changes`
performs). -/
def overwriteFrom : Nat → List PyFloat → List PyFloat → List PyFloat
  | _, [], l => l
  | a, v :: vs, l => overwriteFrom (a + 1) vs (l.set a v)

/-- Covering combination of the dirty range with a new interval: the pure
content of `_update_modified_range`. -/
def combineMR : Option (Int × Int) → Int → Int → Int × Int
  | some (lo, hi), low, high => (min lo low, max hi high)
  | none, low, high => (low, high)

/-- The total element count of the backing buffer (0 with no buffer). -/
def arraySize (st : DataArray) : Int :=
  match st.ndarray with
  | some nd => nd.flat.length
  | none => 0

/-- The claimed numeric invariant on the dirty range: when it is non-empty
with bounds `(lo, hi)`, then `lo ≤ hi` and the range lies within
`[0, size - 1]` for `size` the element count of the buffer. -/
def MrInv (st : DataArray) : Prop :=
  match st.modified_range with
  | none => True
  | some (lo, hi) => lo ≤ hi ∧ 0 ≤ lo ∧ hi ≤ arraySize st - 1

instance (st : DataArray) : Decidable (MrInv st) := by
  unfold MrInv
  match st.modified_range with
  | none => exact inferInstance
  | some (lo, hi) => exact inferInstance

/-- Well-formedness of an initialized array: the buffer exists, its shape is
the array's shape, its flat length is the shape product, and the index
fills are the ones `_set_index_bounds` computes. All modelled
initializations establish this. -/
def Wf (st : DataArray) : Prop :=
  match st.ndarray, st.shape with
  | some nd, some sh =>
    nd.ashape = sh ∧ nd.flat.length = sh.prod ∧
    st.min_indices = sh.map (fun _ => (0 : Int)) ∧
    st.max_indices = sh.map (fun (d : Nat) => (d : Int) - 1)
  | _, _ => False

instance (st : DataArray) : Decidable (Wf st) := by
  unfold Wf
  match st.ndarray, st.shape with
  | some nd, some sh => exact inferInstance
  | some _, none => exact inferInstance
  | none, _ => exact inferInstance

/-- A cursor value lies within the flat bounds of a buffer of `size`
elements (vacuously true when the cursor is unset). -/
def cursorOk (c : Option Int) (size : Nat) : Prop :=
  match c with
  | none => True
  | some v => 0 ≤ v ∧ v ≤ (size : Int) - 1

instance (c : Option Int) (size : Nat) : Decidable (cursorOk c size) := by
  unfold cursorOk
  match c with
  | none => exact inferInstance
  | some v => exact inferInstance

/-- Modelled from the spec (claim C8): the highest touched flat index,
`max(last_saved_index, modified_range.high, synced_index, -1)`, each cursor
entering the max only when it is set. -/
def cursorHigh (st : DataArray) : Int :=
  max (max (st.last_saved_index.getD (-1)) ((st.modified_range.map Prod.snd).getD (-1)))
      (max (st.synced_index.getD (-1)) (-1))

/-- Modelled from the spec (claim C3): the per-dimension minimum and maximum
positions addressed by one explicit index entry — a plain int addresses
exactly its position; a (positive-step, non-empty) slice addresses its first
realized position through its last realized position
(`start + step * (count - 1)`). -/
def specPair (d : Nat) : LoopIndex → Int × Int
  | .int i => (i, i)
  | .slc a b c =>
    match sliceIndices a b c d with
    | .ok (start, stop, step) => (start, start + step * ((rangeLen start stop step : Int) - 1))
    | .error _ => (0, 0)

/-- Modelled from the spec (claim C3): min/max addressed positions of the
explicit index entries, dimension by dimension. -/
def specExplicit (ixs : List LoopIndex) (sh : List Nat) : List (Int × Int) :=
  (ixs.zip sh).map (fun p => specPair p.2 p.1)

/-- Modelled from the spec (claim C3): the full per-dimension minimum
addressed positions — explicitly addressed dimensions contribute their
minimum, unaddressed dimensions contribute 0. -/
def specMins (ixs : List LoopIndex) (sh : List Nat) : List Int :=
  (specExplicit ixs sh).map (fun p => p.1) ++ (sh.drop ixs.length).map (fun _ => (0 : Int))

/-- Modelled from the spec (claim C3): the full per-dimension maximum
addressed positions — unaddressed dimensions contribute `dim - 1`. -/
def specMaxs (ixs : List LoopIndex) (sh : List Nat) : List Int :=
  (specExplicit ixs sh).map (fun p => p.2) ++ (sh.drop ixs.length).map (fun (d : Nat) => (d : Int) - 1)

/-- Modelled from the spec (claim C3): the claimed flat lower bound of the
addressed region, by standard row-major multi-index conversion. -/
def specMinFlat (ixs : List LoopIndex) (sh : List Nat) : Int := rowMajorFlat (specMins ixs sh) sh

/-- Modelled from the spec (claim C3): the claimed flat upper bound of the
addressed region. -/
def specMaxFlat (ixs : List LoopIndex) (sh : List Nat) : Int := rowMajorFlat (specMaxs ixs sh) sh

/-- One explicit index entry is well-behaved against dimension `d`: an int
within `[0, d)`, or a slice resolving to a positive step addressing at
least one element. -/
def goodIndex (d : Nat) : LoopIndex → Bool
  | .int i => decide (0 ≤ i) && decide (i < (d : Int))
  | .slc a b c =>
    match sliceIndices a b c d with
    | .ok (start, stop, step) => decide (0 < step) && decide (start < stop)
    | .error _ => false

/-- Well-behaved index expression against a shape: no more entries than
dimensions, each entry well-behaved against its dimension, and every
dimension positive. -/
def goodIndices (ixs : List LoopIndex) (sh : List Nat) : Bool :=
  decide (ixs.length ≤ sh.length) && ((ixs.zip sh).all (fun p => goodIndex p.2 p.1))
    && sh.all (fun d => decide (0 < d))

/-- Every slice entry of an index expression (walked with the position
offset the resolution loop uses) resolves to a positive step addressing at
least one element; int entries are unconstrained. -/
def slicesOkAux (sh : List Nat) : List LoopIndex → Nat → Bool
  | [], _ => true
  | .int _ :: rest, k => slicesOkAux sh rest (k + 1)
  | .slc a b c :: rest, k =>
    (match sh.get? k with
     | none => true
     | some d =>
       match sliceIndices a b c d with
       | .ok (start, stop, step) => decide (0 < step) && decide (start < stop)
       | .error _ => false) && slicesOkAux sh rest (k + 1)

/-- Every slice of the index expression is positive-step and non-empty. -/
def slicesOk (ixs : List LoopIndex) (sh : List Nat) : Bool := slicesOkAux sh ixs 0

/-- The amended claim C5 bundle: preservation of the dirty-range invariant
by each modelled operation, with the argument constraints the code
requires (sliced writes must address at least one element with a positive
step; a recorded save cursor must be within bounds before `clear_save`;
preset data and nest sizes must be non-degenerate). -/
def MrInvPreserved (st : DataArray) : Prop :=
  (∀ i : Int, MrInv (markSaved i st)) ∧
  ((∀ v, st.last_saved_index = some v → 0 ≤ v ∧ v ≤ arraySize st - 1) → MrInv (clearSave st)) ∧
  (∀ (ix : Indices) (v : PyVal), slicesOk (ixList ix) (st.shape.getD []) = true →
    MrInv (setItem ix v st).2) ∧
  (∀ s : Int, MrInv ((getChanges s st).2)) ∧
  (∀ (a b : Int) (vs : List PyFloat), MrInv (applyChanges a b vs st).2) ∧
  MrInv (initData none st).2 ∧
  (∀ d : NdArr, d.flat.length = d.ashape.prod → 0 < d.ashape.prod →
    MrInv (initData (some d) st).2) ∧
  (∀ (size : Nat) (ai : Option Int) (sa : Option SetRef), 0 < size → 0 < arraySize st →
    MrInv (nest size ai sa st).2) ∧
  (∀ (sh : List Nat) (sets : List SetRef) (acts : List Int) (b : Bool),
    MrInv (mkDataArray (some sh) sets acts b none).2) ∧
  (∀ (sets : List SetRef) (acts : List Int) (b : Bool),
    MrInv (mkDataArray none sets acts b none).2) ∧
  (∀ (sh? : Option (List Nat)) (sets : List SetRef) (acts : List Int) (b : Bool) (d : NdArr),
    d.flat.length = d.ashape.prod → 0 < d.ashape.prod →
    MrInv (mkDataArray sh? sets acts b (some d)).2)

/-- The amended claim C4 bundle: a failing `init_data` or `nest` leaves the
state untouched; a failing item write leaves the buffer untouched and
mutates at most the modified range; a failing `apply_changes` leaves the
sync cursor and all bookkeeping untouched, mutating at most the buffer
(its writes are sequential, so earlier writes may persist). -/
def FailureFrame (st : DataArray) : Prop :=
  (∀ d? : Option NdArr, (initData d? st).1.isSome → (initData d? st).2 = st) ∧
  (∀ (size : Nat) (ai : Option Int) (sa : Option SetRef),
    (nest size ai sa st).1.isSome → (nest size ai sa st).2 = st) ∧
  (∀ (ix : Indices) (v : PyVal), (setItem ix v st).1.isSome →
    ((setItem ix v st).2).ndarray = st.ndarray ∧
    (setItem ix v st).2 = { st with modified_range := ((setItem ix v st).2).modified_range }) ∧
  (∀ (a b : Int) (vs : List PyFloat), (applyChanges a b vs st).1.isSome →
    (applyChanges a b vs st).2 = { st with ndarray := ((applyChanges a b vs st).2).ndarray })

/-- An initialized, empty (all-NaN) one-dimensional array of length 4. -/
def exArr4 : DataArray := (initData none (mkDataArray (some [4]) [] [] false none).2).2

/-- An initialized, empty two-by-three array. -/
def exArr23 : DataArray := (initData none (mkDataArray (some [2, 3]) [] [] false none).2).2

/-- An initialized zero-length array (shape `(0,)`). -/
def exArr0 : DataArray := (initData none (mkDataArray (some [0]) [] [] false none).2).2

/-- A preset array holding the data `[1, 2, 3]`. -/
def exPreset : DataArray :=
  (mkDataArray none [] [] false (some ⟨[3], [.val 1, .val 2, .val 3]⟩)).2

/-- A dimensionless array nested with size 3 (as its own setpoint), then
with size 4 under an outer set array. -/
def exNested : DataArray :=
  (nest 4 none (some (.ref 0)) ((nest 3 none none (mkDataArray none [] [] false none).2).2)).2

/-- The producer of the sync example: shape `(10,)`, buffer values `0..9`,
save cursor 9, no dirty range. -/
def exProducer : DataArray :=
  { (initData none (mkDataArray (some [10]) [] [] false none).2).2 with
    last_saved_index := some 9,
    ndarray := some ⟨[10], (List.range 10).map (fun k => .val k)⟩ }

/-- A fresh consumer array of shape `(10,)`. -/
def exConsumer : DataArray := (initData none (mkDataArray (some [10]) [] [] false none).2).2

/-! Helper lemmas about the operations (shared across the claim theorems). -/

/-- `_update_modified_range` rewrites only the `modified_range` field, to the
covering combination. -/
theorem updateModifiedRange_eq (low high : Int) (st : DataArray) :
    updateModifiedRange low high st
      = { st with modified_range := some (combineMR st.modified_range low high) } := by
  unfold updateModifiedRange combineMR
  cases st.modified_range with
  | none => rfl
  | some p => cases p; rfl

/-- `mark_saved` records the cursor and touches no field other than the
modified range. -/
theorem markSaved_eq (i : Int) (st : DataArray) :
    markSaved i st
      = { st with last_saved_index := some i,
                  modified_range := (markSaved i st).modified_range } := by
  unfold markSaved
  cases st.modified_range with
  | none => rfl
  | some p =>
    cases p with
    | mk lo hi => by_cases h : hi ≤ i <;> simp [h]

/-- `clear_save` unsets the cursor and touches no field other than the
modified range. -/
theorem clearSave_eq (st : DataArray) :
    clearSave st
      = { st with last_saved_index := none,
                  modified_range := (clearSave st).modified_range } := by
  unfold clearSave
  cases st.last_saved_index with
  | none => rfl
  | some v => simp only [updateModifiedRange_eq]

/-- `__setitem__` touches no field other than the modified range and the
buffer. -/
theorem setItem_eta (ix : Indices) (v : PyVal) (st : DataArray) :
    (setItem ix v st).2
      = { st with modified_range := ((setItem ix v st).2).modified_range,
                  ndarray := ((setItem ix v st).2).ndarray } := by
  simp only [setItem, updateModifiedRange]
  repeat' split
  all_goals rfl

/-- `__setitem__` does not move the save cursor. -/
theorem setItem_lsi (ix : Indices) (v : PyVal) (st : DataArray) :
    ((setItem ix v st).2).last_saved_index = st.last_saved_index := by
  rw [setItem_eta]

/-- `init_data` touches neither cursor. -/
theorem initData_keeps (d? : Option NdArr) (st : DataArray) :
    ((initData d? st).2).last_saved_index = st.last_saved_index ∧
    ((initData d? st).2).synced_index = st.synced_index := by
  simp only [initData, initPreset, setIndexBounds]
  repeat' split
  all_goals exact ⟨rfl, rfl⟩

/-- A failing `init_data` leaves the state untouched (every raise happens
before any field assignment). -/
theorem initData_err (d? : Option NdArr) (st : DataArray) :
    (initData d? st).1.isSome → (initData d? st).2 = st := by
  simp only [initData, initPreset, setIndexBounds]
  repeat' split
  all_goals intro h
  all_goals first | rfl | simp at h

/-- `nest` touches neither cursor. -/
theorem nest_keeps (size : Nat) (ai : Option Int) (sa : Option SetRef) (st : DataArray) :
    ((nest size ai sa st).2).last_saved_index = st.last_saved_index ∧
    ((nest size ai sa st).2).synced_index = st.synced_index := by
  simp only [nest, setIndexBounds]
  repeat' split
  all_goals exact ⟨rfl, rfl⟩

/-- A failing `nest` leaves the state untouched, provided a preset state has
a buffer (as every reachable preset state does: `init_data` is the only
place that sets the preset flag and it always installs a buffer). -/
theorem nest_err (size : Nat) (ai : Option Int) (sa : Option SetRef) (st : DataArray)
    (hpre : st.preset = true → st.ndarray.isSome = true) :
    (nest size ai sa st).1.isSome → (nest size ai sa st).2 = st := by
  cases ai
  all_goals simp only [nest, setIndexBounds]
  all_goals repeat' split
  all_goals first
    | (intro _; rfl)
    | (intro _; exact absurd (hpre (by assumption)) (by simp_all))
    | (intro h; simp at h)

/-- The write loop of `apply_changes` touches only the buffer and the sync
cursor. -/
theorem applyChangesGo_eta (start stop : Int) (vs : List PyFloat) : ∀ (k : Nat) (st : DataArray),
    (applyChangesGo start stop k vs st).2
      = { st with ndarray := ((applyChangesGo start stop k vs st).2).ndarray,
                  synced_index := ((applyChangesGo start stop k vs st).2).synced_index } := by
  induction vs with
  | nil => intro k st; rfl
  | cons v rest ih =>
    intro k st
    simp only [applyChangesGo]
    cases writeFlat st.ndarray (start + k) v with
    | error e => rfl
    | ok nd => exact ih (k + 1) _

/-- A failing `apply_changes` write loop leaves the sync cursor unset and
touches at most the buffer. -/
theorem applyChangesGo_err (start stop : Int) (vs : List PyFloat) : ∀ (k : Nat) (st : DataArray),
    (applyChangesGo start stop k vs st).1.isSome →
    (applyChangesGo start stop k vs st).2
      = { st with ndarray := ((applyChangesGo start stop k vs st).2).ndarray } := by
  induction vs with
  | nil => intro k st h; exact absurd h (by simp [applyChangesGo])
  | cons v rest ih =>
    intro k st
    simp only [applyChangesGo]
    cases writeFlat st.ndarray (start + k) v with
    | error e => intro _; rfl
    | ok nd => intro h; exact ih (k + 1) _ h

/-- `apply_changes` does not move the save cursor or the dirty range. -/
theorem applyChanges_keeps (a b : Int) (vs : List PyFloat) (st : DataArray) :
    ((applyChanges a b vs st).2).last_saved_index = st.last_saved_index ∧
    ((applyChanges a b vs st).2).modified_range = st.modified_range := by
  have h := applyChangesGo_eta a b vs 0 st
  unfold applyChanges
  rw [h]
  exact ⟨rfl, rfl⟩

/-! Claim C1. -/

/-- C1: on an array whose modified range is `(lo, hi)`, `mark_saved(i)` with
`i ≥ hi` empties the modified range, `mark_saved(i)` with `i < hi` shrinks
it to `(max lo (i+1), hi)`, and in every case (also with an empty modified
range) the save cursor is set to `i`. -/
theorem c1_mark_saved (st : DataArray) (lo hi i : Int)
    (h : st.modified_range = some (lo, hi)) :
    (hi ≤ i → (markSaved i st).modified_range = none) ∧
    (i < hi → (markSaved i st).modified_range = some (max lo (i + 1), hi)) ∧
    (∀ st2 : DataArray, (markSaved i st2).last_saved_index = some i) := by
  refine ⟨fun hle => ?_, fun hlt => ?_, fun st2 => rfl⟩
  · simp [markSaved, h, if_pos hle]
  · simp [markSaved, h, if_neg (not_le.mpr hlt)]

/-- Witness for C1: a concrete array with modified range `(0, 9)`, marked
saved at 9 — mirrored directly from the save/unsave example of the spec. -/
theorem c1_mark_saved_witness :
    ({ exArr4 with modified_range := some (0, 9) } : DataArray).modified_range = some (0, 9) ∧
    (((9 : Int) ≤ 9 →
        (markSaved 9 { exArr4 with modified_range := some (0, 9) }).modified_range = none) ∧
     ((9 : Int) < 9 →
        (markSaved 9 { exArr4 with modified_range := some (0, 9) }).modified_range
          = some (max 0 (9 + 1), 9)) ∧
     (∀ st2 : DataArray, (markSaved 9 st2).last_saved_index = some 9)) :=
  ⟨rfl, c1_mark_saved _ 0 9 9 rfl⟩

/-! Claim C9. -/

/-- C9 counterexample: `mark_saved` records its argument unconditionally, so
a later call with a smaller index lowers `last_saved_index` — here from 9
down to 5. -/
theorem c9_counterexample :
    (markSaved 9 exArr4).last_saved_index = some 9 ∧
    (markSaved 5 (markSaved 9 exArr4)).last_saved_index = some 5 ∧
    ¬ ((9 : Int) ≤ 5) := ⟨rfl, rfl, by decide⟩

/-- C9 (amended): `mark_saved` sets the save cursor to exactly its argument
— hence the cursor is non-decreasing precisely across call sequences with
non-decreasing arguments — the cursor is unset only by `clear_save`, and no
other operation changes it. -/
theorem c9_last_saved_cursor (st : DataArray) (i j : Int) (hij : i ≤ j) :
    (markSaved i st).last_saved_index = some i ∧
    (markSaved j (markSaved i st)).last_saved_index = some j ∧
    (∀ a b : Int, (markSaved i st).last_saved_index = some a →
      (markSaved j (markSaved i st)).last_saved_index = some b → a ≤ b) ∧
    (clearSave st).last_saved_index = none ∧
    (∀ (ix : Indices) (v : PyVal), ((setItem ix v st).2).last_saved_index = st.last_saved_index) ∧
    (∀ d? : Option NdArr, ((initData d? st).2).last_saved_index = st.last_saved_index) ∧
    (∀ (size : Nat) (ai : Option Int) (sa : Option SetRef),
      ((nest size ai sa st).2).last_saved_index = st.last_saved_index) ∧
    (∀ (a b : Int) (vs : List PyFloat),
      ((applyChanges a b vs st).2).last_saved_index = st.last_saved_index) ∧
    ((getChanges i st).2).last_saved_index = st.last_saved_index := by
  refine ⟨rfl, rfl, ?_, rfl, fun ix v => setItem_lsi ix v st,
          fun d? => (initData_keeps d? st).1, fun size ai sa => (nest_keeps size ai sa st).1,
          fun a b vs => (applyChanges_keeps a b vs st).1, rfl⟩
  intro a b ha hb
  have ha2 : some i = some a := ha
  have hb2 : some j = some b := hb
  injection ha2 with ha3
  injection hb2 with hb3
  omega

/-- Witness for C9 at a concrete array with cursor arguments 3 and 7. -/
theorem c9_last_saved_cursor_witness :
    ((3 : Int) ≤ 7) ∧
    ((markSaved 3 exArr4).last_saved_index = some 3 ∧
     (markSaved 7 (markSaved 3 exArr4)).last_saved_index = some 7 ∧
     (∀ a b : Int, (markSaved 3 exArr4).last_saved_index = some a →
       (markSaved 7 (markSaved 3 exArr4)).last_saved_index = some b → a ≤ b) ∧
     (clearSave exArr4).last_saved_index = none ∧
     (∀ (ix : Indices) (v : PyVal),
       ((setItem ix v exArr4).2).last_saved_index = exArr4.last_saved_index) ∧
     (∀ d? : Option NdArr, ((initData d? exArr4).2).last_saved_index = exArr4.last_saved_index) ∧
     (∀ (size : Nat) (ai : Option Int) (sa : Option SetRef),
       ((nest size ai sa exArr4).2).last_saved_index = exArr4.last_saved_index) ∧
     (∀ (a b : Int) (vs : List PyFloat),
       ((applyChanges a b vs exArr4).2).last_saved_index = exArr4.last_saved_index) ∧
     ((getChanges 3 exArr4).2).last_saved_index = exArr4.last_saved_index) :=
  ⟨by decide, c9_last_saved_cursor exArr4 3 7 (by decide)⟩

/-! Claim C10. -/

/-- C10: `get_changes` is read-only — after a call the state (in particular
the buffer, the modified range, the save cursor and the sync cursor) is
identical to the state before the call. -/
theorem c10_get_changes_read_only (s : Int) (st : DataArray) :
    (getChanges s st).2 = st ∧
    ((getChanges s st).2).ndarray = st.ndarray ∧
    ((getChanges s st).2).modified_range = st.modified_range ∧
    ((getChanges s st).2).last_saved_index = st.last_saved_index ∧
    ((getChanges s st).2).synced_index = st.synced_index :=
  ⟨rfl, rfl, rfl, rfl, rfl⟩

/-! Claim C6. -/

/-- C6: a successful `nest(size, action_index, set_array)` prepends `size`
to the shape, prepends the resolved set-array reference to `set_arrays`,
prepends `action_index` to `action_indices` when one is given (leaving it
unchanged otherwise), and the operation returns the array itself (the
updated state in this functional model). Consequently a fresh dimensionless
array nested with size 3 (as its own setpoint) and then size 4 (under an
outer set array) has shape `(4, 3)` and two set arrays, outermost first. -/
theorem c6_nest_prepends (st : DataArray) (sh : List Nat) (size : Nat)
    (ai : Option Int) (sa : Option SetRef)
    (hsh : st.shape = some sh)
    (hbuf : st.ndarray.isSome = true → st.preset = true)
    (hpre : st.preset = true → st.ndarray.isSome = true)
    (hset : sa.isSome = true ∨ st.set_arrays = []) :
    (nest size ai sa st).1 = none ∧
    ((nest size ai sa st).2).shape = some (size :: sh) ∧
    ((nest size ai sa st).2).set_arrays = sa.getD .selfRef :: st.set_arrays ∧
    ((nest size ai sa st).2).action_indices
      = (match ai with | some a => a :: st.action_indices | none => st.action_indices) ∧
    exNested.shape = some [4, 3] ∧
    exNested.set_arrays.length = 2 ∧
    exNested.set_arrays = [SetRef.ref 0, SetRef.selfRef] := by
  have hconc : exNested.shape = some [4, 3] ∧ exNested.set_arrays.length = 2 ∧
      exNested.set_arrays = [SetRef.ref 0, SetRef.selfRef] := by decide
  have h1 : ¬ (st.ndarray.isSome = true ∧ st.preset = false) := by
    rintro ⟨ha, hb⟩
    rw [hbuf ha] at hb
    cases hb
  have h2 : ¬ (sa.isNone = true ∧ st.set_arrays ≠ []) := by
    rintro ⟨ha, hb⟩
    cases hset with
    | inl h => rw [Option.isNone_iff_eq_none] at ha; rw [ha] at h; cases h
    | inr h => exact hb h
  cases ai
  all_goals simp only [nest, setIndexBounds, hsh, if_neg h1, if_neg h2]
  all_goals split
  · -- preset branch (no action index)
    rename_i hps
    cases hnd : st.ndarray with
    | none => exact absurd (hpre (by simpa using hps)) (by simp [hnd])
    | some inner => exact ⟨rfl, rfl, rfl, rfl, hconc⟩
  · exact ⟨rfl, rfl, rfl, rfl, hconc⟩
  · -- preset branch (with action index)
    rename_i hps
    cases hnd : st.ndarray with
    | none => exact absurd (hpre (by simpa using hps)) (by simp [hnd])
    | some inner => exact ⟨rfl, rfl, rfl, rfl, hconc⟩
  · exact ⟨rfl, rfl, rfl, rfl, hconc⟩

/-- Witness for C6: nesting a fresh dimensionless array with size 3. -/
theorem c6_nest_prepends_witness :
    ((mkDataArray none [] [] false none).2.shape = some ([] : List Nat)) ∧
    ((mkDataArray none [] [] false none).2.ndarray.isSome = true →
      (mkDataArray none [] [] false none).2.preset = true) ∧
    ((mkDataArray none [] [] false none).2.preset = true →
      (mkDataArray none [] [] false none).2.ndarray.isSome = true) ∧
    (((none : Option SetRef)).isSome = true ∨ (mkDataArray none [] [] false none).2.set_arrays = []) ∧
    ((nest 3 none none (mkDataArray none [] [] false none).2).1 = none ∧
     ((nest 3 none none (mkDataArray none [] [] false none).2).2).shape = some [3] ∧
     ((nest 3 none none (mkDataArray none [] [] false none).2).2).set_arrays
       = (none : Option SetRef).getD .selfRef :: (mkDataArray none [] [] false none).2.set_arrays ∧
     ((nest 3 none none (mkDataArray none [] [] false none).2).2).action_indices
       = (mkDataArray none [] [] false none).2.action_indices ∧
     exNested.shape = some [4, 3] ∧
     exNested.set_arrays.length = 2 ∧
     exNested.set_arrays = [SetRef.ref 0, SetRef.selfRef]) :=
  ⟨rfl, by decide, by decide, Or.inr rfl,
   c6_nest_prepends _ [] 3 none none rfl (by decide) (by decide) (Or.inr rfl)⟩

/-! Claim C7. -/

/-- C7: a successful `nest(size)` of a preset array reallocates the buffer
to the new shape with the old inner data copied into each of the `size`
outer slices, and marks the whole new buffer modified. In particular a
preset `[1, 2, 3]` nested with size 2 has shape `(2, 3)`, buffer
`[[1,2,3],[1,2,3]]` (flat `[1,2,3,1,2,3]`) and modified range `(0, 5)`. -/
theorem c7_nest_preset (st : DataArray) (sh : List Nat) (nd : NdArr) (size : Nat)
    (ai : Option Int) (sa : Option SetRef)
    (hps : st.preset = true) (hnd : st.ndarray = some nd) (hsh : st.shape = some sh)
    (hset : sa.isSome = true ∨ st.set_arrays = []) :
    (nest size ai sa st).1 = none ∧
    ((nest size ai sa st).2).ndarray
      = some ⟨size :: sh, List.flatten (List.replicate size nd.flat)⟩ ∧
    ((nest size ai sa st).2).modified_range = some (0, (((size :: sh).prod : Nat) : Int) - 1) ∧
    (nest 2 none none exPreset).1 = none ∧
    ((nest 2 none none exPreset).2).shape = some [2, 3] ∧
    ((nest 2 none none exPreset).2).ndarray
      = some ⟨[2, 3], [.val 1, .val 2, .val 3, .val 1, .val 2, .val 3]⟩ ∧
    ((nest 2 none none exPreset).2).modified_range = some (0, 5) := by
  have hconc : (nest 2 none none exPreset).1 = none ∧
      ((nest 2 none none exPreset).2).shape = some [2, 3] ∧
      ((nest 2 none none exPreset).2).ndarray
        = some ⟨[2, 3], [.val 1, .val 2, .val 3, .val 1, .val 2, .val 3]⟩ ∧
      ((nest 2 none none exPreset).2).modified_range = some (0, 5) := by decide
  have h1 : ¬ (st.ndarray.isSome = true ∧ st.preset = false) := by
    rintro ⟨_, hb⟩
    rw [hps] at hb
    cases hb
  have h2 : ¬ (sa.isNone = true ∧ st.set_arrays ≠ []) := by
    rintro ⟨ha, hb⟩
    cases hset with
    | inl h => rw [Option.isNone_iff_eq_none] at ha; rw [ha] at h; cases h
    | inr h => exact hb h
  cases ai
  all_goals simp only [nest, setIndexBounds, hsh, hps, hnd, if_neg h1, if_neg h2]
  all_goals split
  all_goals first
    | exact ⟨rfl, rfl, rfl, hconc⟩
    | (rename_i hps2
       exact absurd hps2.2 (by decide))

/-- Witness for C7: the preset `[1, 2, 3]` nested with size 2. -/
theorem c7_nest_preset_witness :
    exPreset.preset = true ∧
    exPreset.ndarray = some ⟨[3], [.val 1, .val 2, .val 3]⟩ ∧
    exPreset.shape = some [3] ∧
    (((none : Option SetRef)).isSome = true ∨ exPreset.set_arrays = []) ∧
    ((nest 2 none none exPreset).1 = none ∧
     ((nest 2 none none exPreset).2).ndarray
       = some ⟨2 :: [3],
               List.flatten (List.replicate 2 (NdArr.flat ⟨[3], [.val 1, .val 2, .val 3]⟩))⟩ ∧
     ((nest 2 none none exPreset).2).modified_range
       = some (0, (((2 :: [3]).prod : Nat) : Int) - 1) ∧
     (nest 2 none none exPreset).1 = none ∧
     ((nest 2 none none exPreset).2).shape = some [2, 3] ∧
     ((nest 2 none none exPreset).2).ndarray
       = some ⟨[2, 3], [.val 1, .val 2, .val 3, .val 1, .val 2, .val 3]⟩ ∧
     ((nest 2 none none exPreset).2).modified_range = some (0, 5)) :=
  ⟨rfl, rfl, rfl, Or.inr rfl,
   c7_nest_preset exPreset [3] ⟨[3], [.val 1, .val 2, .val 3]⟩ 2 none none rfl rfl rfl (Or.inr rfl)⟩

/-! Claim C8. -/

/-- With a non-empty buffer, `fraction_complete` returns exactly
`(1 + max(last_saved_index, modified_range.high, synced_index, -1)) / size`,
each cursor entering the max only when set. -/
theorem fractionComplete_eq (st : DataArray) (nd : NdArr) (hnd : st.ndarray = some nd)
    (hsz : ¬ nd.size = 0) :
    fractionComplete st = .ok (((cursorHigh st + 1 : Int) : Rat) / ((nd.size : Int) : Rat)) := by
  unfold fractionComplete cursorHigh
  rw [hnd]
  rcases hl : st.last_saved_index with _ | lv <;>
  rcases hm : st.modified_range with _ | ⟨mlo, mhi⟩ <;>
  rcases hs : st.synced_index with _ | sv <;>
  simp only [Option.getD_some, Option.getD_none, Option.map_some', Option.map_none', if_neg hsz] <;>
  (refine congrArg Except.ok (congrArg (fun q : Rat => q / ((nd.size : Int) : Rat)) ?_)
   norm_cast
   all_goals omega)

/-- C8 counterexample: an initialized zero-size buffer (shape `(0,)`) with
every cursor unset — so every set cursor lies vacuously within
`[0, size - 1]` — makes `fraction_complete` divide zero by zero
(ZeroDivisionError in the code, an error value here), not return a float in
`[0, 1]`. -/
theorem c8_counterexample :
    exArr0.ndarray = some ⟨[0], []⟩ ∧
    exArr0.last_saved_index = none ∧
    exArr0.modified_range = none ∧
    exArr0.synced_index = none ∧
    fractionComplete exArr0 = .error .zeroDivisionError := ⟨rfl, rfl, rfl, rfl, rfl⟩

/-- C8 (amended): `fraction_complete` returns 0 with no buffer, and with a
non-empty buffer returns
`(1 + max(last_saved_index, modified_range.high, synced_index, -1)) / size`
(each cursor taken only when set), a value in `[0, 1]` whenever every set
cursor lies within `[0, size - 1]`; an empty (zero-size) buffer instead
raises on the division. -/
theorem c8_fraction_complete (st : DataArray) (nd : NdArr) (hnd : st.ndarray = some nd)
    (hsz : 0 < nd.size) :
    (∀ st2 : DataArray, st2.ndarray = none → fractionComplete st2 = .ok 0) ∧
    fractionComplete st = .ok (((cursorHigh st + 1 : Int) : Rat) / ((nd.size : Int) : Rat)) ∧
    (cursorOk st.last_saved_index nd.size →
     (∀ lo hi, st.modified_range = some (lo, hi) → 0 ≤ hi ∧ hi ≤ (nd.size : Int) - 1) →
     cursorOk st.synced_index nd.size →
     ∃ q, fractionComplete st = .ok q ∧ 0 ≤ q ∧ q ≤ 1) := by
  have hne : ¬ nd.size = 0 := by omega
  have heq := fractionComplete_eq st nd hnd hne
  refine ⟨fun st2 h2 => by simp [fractionComplete, h2], heq, fun hc1 hc2 hc3 => ?_⟩
  refine ⟨_, heq, ?_, ?_⟩
  · apply div_nonneg
    · have hb : (-1 : Int) ≤ cursorHigh st := by
        unfold cursorHigh
        omega
      have : (0 : Int) ≤ cursorHigh st + 1 := by omega
      exact_mod_cast this
    · positivity
  · rw [div_le_one (by exact_mod_cast hsz)]
    have hhi : cursorHigh st + 1 ≤ (nd.size : Int) := by
      unfold cursorHigh
      unfold cursorOk at hc1 hc3
      rcases hl : st.last_saved_index with _ | lv <;>
      rcases hm : st.modified_range with _ | ⟨mlo, mhi⟩ <;>
      rcases hs : st.synced_index with _ | sv <;>
      simp only [hl, hm, hs, Option.getD_some, Option.getD_none, Option.map_some',
        Option.map_none'] at hc1 hc3 ⊢ <;>
      first
        | omega
        | (have h2 := hc2 mlo mhi hm; omega)
    exact_mod_cast hhi

/-- Witness for C8 at the producer example (save cursor 9, size 10). -/
theorem c8_fraction_complete_witness :
    exProducer.ndarray = some ⟨[10], (List.range 10).map (fun k => .val k)⟩ ∧
    0 < NdArr.size ⟨[10], (List.range 10).map (fun k => .val k)⟩ ∧
    ((∀ st2 : DataArray, st2.ndarray = none → fractionComplete st2 = .ok 0) ∧
     fractionComplete exProducer
       = .ok (((cursorHigh exProducer + 1 : Int) : Rat)
           / ((NdArr.size ⟨[10], (List.range 10).map (fun k => .val k)⟩ : Int) : Rat)) ∧
     (cursorOk exProducer.last_saved_index (NdArr.size ⟨[10], (List.range 10).map (fun k => .val k)⟩) →
      (∀ lo hi, exProducer.modified_range = some (lo, hi) →
        0 ≤ hi ∧ hi ≤ ((NdArr.size ⟨[10], (List.range 10).map (fun k => .val k)⟩ : Nat) : Int) - 1) →
      cursorOk exProducer.synced_index (NdArr.size ⟨[10], (List.range 10).map (fun k => .val k)⟩) →
      ∃ q, fractionComplete exProducer = .ok q ∧ 0 ≤ q ∧ q ≤ 1)) :=
  ⟨rfl, by decide, c8_fraction_complete exProducer _ rfl (by decide)⟩

/-! Claim C4. -/

/-- C4 counterexample: writing row 1 of a 2×3 array with a length-2 value
makes the buffer write fail (the value does not broadcast), yet the
modified range — updated before the write — is left expanded to `(3, 5)`
rather than unchanged. -/
theorem c4_counterexample :
    (setItem (.single (.int 1)) (.arr [.val 9, .val 9]) exArr23).1 = some .valueError ∧
    exArr23.modified_range = none ∧
    ((setItem (.single (.int 1)) (.arr [.val 9, .val 9]) exArr23).2).modified_range
      = some (3, 5) := by decide

/-- C4 (amended): `init_data` and `nest` fail atomically (no mutation
escapes a raise), but `__setitem__` expands the modified range before the
buffer write — a failing write leaves the buffer untouched and the modified
range already expanded — and the `apply_changes` write loop fails with
earlier writes in place (only the buffer is touched; the sync cursor is set
only on full success). -/
theorem c4_failure_frame (st : DataArray)
    (hpre : st.preset = true → st.ndarray.isSome = true) : FailureFrame st := by
  refine ⟨fun d? => initData_err d? st, fun size ai sa => nest_err size ai sa st hpre,
          ?_, fun a b vs h => applyChangesGo_err a b vs 0 st h⟩
  intro ix v
  simp only [setItem, updateModifiedRange]
  repeat' split
  all_goals intro h
  all_goals first
    | exact ⟨rfl, rfl⟩
    | simp at h

/-- Witness for C4 at a concrete initialized array. -/
theorem c4_failure_frame_witness :
    (exArr4.preset = true → exArr4.ndarray.isSome = true) ∧ FailureFrame exArr4 :=
  ⟨by decide, c4_failure_frame exArr4 (by decide)⟩

/-! Helper lemmas for the sync protocol (claim C2). -/

/-- A unit-step Python range has `stop - start` elements. -/
theorem rangeLen_one (a b : Int) : rangeLen a b 1 = (b - a).toNat := by
  unfold rangeLen
  rw [if_pos (by omega : (0 : Int) < 1)]
  have : b - a + 1 - 1 = b - a := by omega
  rw [this, Int.fdiv_one]

/-- Length of a unit-step range. -/
theorem rangeList_one_length (a b : Int) : (rangeList a b 1).length = (b - a).toNat := by
  unfold rangeList
  rw [List.length_map, List.length_range, rangeLen_one]

/-- Element `j` of a unit-step range is `a + j`. -/
theorem rangeList_one_getD (a b : Int) (j : Nat) (d : Int) (h : j < (b - a).toNat) :
    (rangeList a b 1).getD j d = a + j := by
  unfold rangeList
  rw [List.getD_eq_getElem _ _
    (by rw [List.length_map, List.length_range, rangeLen_one]; exact h)]
  rw [List.getElem_map, List.getElem_range]
  omega

/-- Members of a unit-step range lie in `[a, b)`. -/
theorem rangeList_one_mem (a b x : Int) (h : x ∈ rangeList a b 1) : a ≤ x ∧ x < b := by
  unfold rangeList at h
  rw [List.mem_map] at h
  obtain ⟨k, hk, rfl⟩ := h
  rw [List.mem_range, rangeLen_one] at hk
  omega

/-- Reading a run of in-bounds flat indices succeeds and returns the buffer
values at those indices. -/
theorem mapExcept_ok (nd : NdArr) : ∀ (l : List Int),
    (∀ i ∈ l, 0 ≤ i ∧ i < (nd.size : Int)) →
    mapExcept (readFlat (some nd)) l = .ok (l.map (fun i => nd.flat.getD i.toNat .nan)) := by
  intro l
  induction l with
  | nil => intro _; rfl
  | cons i rest ih =>
    intro h
    have hi := h i (by simp)
    simp only [mapExcept, readFlat, if_pos hi, ih (fun x hx => h x (by simp [hx])), List.map]

/-- `getD` at the overwritten position. -/
theorem getD_set_self (l : List PyFloat) (i : Nat) (v d : PyFloat) (h : i < l.length) :
    (l.set i v).getD i d = v := by
  rw [List.getD_eq_getElem _ _ (by simpa using h)]
  exact List.getElem_set_self _

/-- `getD` away from the overwritten position. -/
theorem getD_set_ne (l : List PyFloat) (i j : Nat) (hij : i ≠ j) (v d : PyFloat) :
    (l.set i v).getD j d = l.getD j d := by
  by_cases hj : j < l.length
  · rw [List.getD_eq_getElem _ _ (by simpa using hj), List.getD_eq_getElem _ _ hj]
    exact List.getElem_set_ne hij _
  · rw [List.getD_eq_getElem?_getD, List.getD_eq_getElem?_getD]
    rw [List.getElem?_eq_none (by simpa using hj), List.getElem?_eq_none (by omega)]

/-- The sequential overwrite preserves the buffer length. -/
theorem overwriteFrom_length : ∀ (vs : List PyFloat) (a : Nat) (l : List PyFloat),
    (overwriteFrom a vs l).length = l.length := by
  intro vs
  induction vs with
  | nil => intro a l; rfl
  | cons v rest ih =>
    intro a l
    show (overwriteFrom (a + 1) rest (l.set a v)).length = l.length
    rw [ih, List.length_set]

/-- Positions outside the overwritten run are untouched. -/
theorem overwriteFrom_getD_outside : ∀ (vs : List PyFloat) (a m : Nat) (l : List PyFloat)
    (d : PyFloat), (m < a ∨ a + vs.length ≤ m) →
    (overwriteFrom a vs l).getD m d = l.getD m d := by
  intro vs
  induction vs with
  | nil => intro a m l d _; rfl
  | cons v rest ih =>
    intro a m l d h
    simp only [List.length_cons] at h
    show (overwriteFrom (a + 1) rest (l.set a v)).getD m d = l.getD m d
    rw [ih (a + 1) m _ d (by omega), getD_set_ne l a m (by omega) v d]

/-- Position `a + j` inside the overwritten run holds value `j` of the run. -/
theorem overwriteFrom_getD_inside : ∀ (vs : List PyFloat) (a j : Nat) (l : List PyFloat)
    (d : PyFloat), j < vs.length → a + vs.length ≤ l.length →
    (overwriteFrom a vs l).getD (a + j) d = vs.getD j d := by
  intro vs
  induction vs with
  | nil => intro a j l d h _; exact absurd h (by simp)
  | cons v rest ih =>
    intro a j l d hj hlen
    simp only [List.length_cons] at hj hlen
    show (overwriteFrom (a + 1) rest (l.set a v)).getD (a + j) d = (v :: rest).getD j d
    cases j with
    | zero =>
      have h1 : (overwriteFrom (a + 1) rest (l.set a v)).getD (a + 0) d
          = (l.set a v).getD (a + 0) d :=
        overwriteFrom_getD_outside rest (a + 1) (a + 0) _ d (Or.inl (by omega))
      rw [h1]
      have ha0 : a + 0 = a := by omega
      rw [ha0, getD_set_self l a v d (by omega)]
      rfl
    | succ j2 =>
      have hsh : a + (j2 + 1) = (a + 1) + j2 := by omega
      rw [hsh, ih (a + 1) j2 (l.set a v) d (by omega) (by rw [List.length_set]; omega)]
      rfl

/-- The `apply_changes` write loop, writing an in-bounds run into an
existing buffer, succeeds and produces the sequential overwrite of the flat
buffer, setting the sync cursor to `stop`. -/
theorem applyChangesGo_ok (stop : Int) : ∀ (vs : List PyFloat) (start : Int) (k : Nat)
    (st : DataArray) (nd : NdArr), st.ndarray = some nd →
    0 ≤ start + (k : Int) → start + (k : Int) + vs.length ≤ (nd.size : Int) →
    applyChangesGo start stop k vs st
      = (none, { st with
          ndarray := some { nd with flat := overwriteFrom (start + (k : Int)).toNat vs nd.flat },
          synced_index := some stop }) := by
  intro vs
  induction vs with
  | nil =>
    intro start k st nd hnd _ _
    simp only [applyChangesGo, overwriteFrom]
    have hee : ({ nd with flat := nd.flat } : NdArr) = nd := rfl
    rw [hee, ← hnd]
  | cons v rest ih =>
    intro start k st nd hnd hpos hbound
    simp only [List.length_cons] at hbound
    have hin : 0 ≤ start + (k : Int) ∧ start + (k : Int) < (nd.size : Int) := by
      push_cast at hbound
      omega
    have hw : writeFlat st.ndarray (start + (k : Int)) v
        = .ok { nd with flat := nd.flat.set (start + (k : Int)).toNat v } := by
      rw [hnd]
      simp only [writeFlat]
      rw [if_pos hin]
    simp only [applyChangesGo, hw]
    have hsz : ({ nd with flat := nd.flat.set (start + (k : Int)).toNat v } : NdArr).size
        = nd.size := rfl
    have hih := ih start (k + 1)
      { st with ndarray := some { nd with flat := nd.flat.set (start + (k : Int)).toNat v } }
      { nd with flat := nd.flat.set (start + (k : Int)).toNat v }
      rfl (by push_cast; omega)
      (by rw [hsz]; push_cast at hbound ⊢; omega)
    
    rw [hih]
    have hnat : (start + ((k : Nat) + 1 : Nat) : Int).toNat = (start + (k : Int)).toNat + 1 := by
      push_cast
      omega
    simp only [overwriteFrom]
    rw [hnat]

/-! Claim C2. -/

/-- C2: the sync round trip. Let `M` be the producer's high-water mark
(`latestIndex`: the max of the save cursor and the dirty-range high bound,
default -1). If `M ≤ s`, `get_changes(s)` reports no changes. If `M > s`,
`get_changes(s)` returns start `s+1`, stop `M` and the producer's buffer
values at flat indices `s+1 .. M` in order, and applying that result to a
second array of identical shape succeeds, makes the second buffer agree
with the producer's at flat positions `s+1 .. M`, and sets the second
array's sync cursor to `M`. -/
theorem c2_round_trip (p q : DataArray) (s : Int) (ndp ndq : NdArr)
    (hp : p.ndarray = some ndp) (hpw : ndp.flat.length = ndp.ashape.prod)
    (hq : q.ndarray = some ndq) (hqs : ndq.ashape = ndp.ashape)
    (hqw : ndq.flat.length = ndq.ashape.prod)
    (hs : -1 ≤ s) (hM : latestIndex p ≤ (ndp.size : Int) - 1) :
    (latestIndex p ≤ s → getChangesPayload s p = (none, none)) ∧
    (s < latestIndex p →
      getChangesPayload s p
        = (none, some ⟨s + 1, latestIndex p,
            (rangeList (s + 1) (latestIndex p + 1) 1).map
              (fun i => ndp.flat.getD i.toNat .nan)⟩) ∧
      (applyChanges (s + 1) (latestIndex p)
          ((rangeList (s + 1) (latestIndex p + 1) 1).map (fun i => ndp.flat.getD i.toNat .nan))
          q).1 = none ∧
      ((applyChanges (s + 1) (latestIndex p)
          ((rangeList (s + 1) (latestIndex p + 1) 1).map (fun i => ndp.flat.getD i.toNat .nan))
          q).2).synced_index = some (latestIndex p) ∧
      (∃ ndr, ((applyChanges (s + 1) (latestIndex p)
          ((rangeList (s + 1) (latestIndex p + 1) 1).map (fun i => ndp.flat.getD i.toNat .nan))
          q).2).ndarray = some ndr ∧
        ∀ k : Int, s + 1 ≤ k → k ≤ latestIndex p →
          ndr.flat.getD k.toNat .nan = ndp.flat.getD k.toNat .nan)) := by
  constructor
  · -- no changes when the high-water mark is not past the sync cursor
    intro hle
    unfold getChangesPayload
    have hzero : rangeLen (s + 1) (latestIndex p + 1) 1 = 0 := by
      rw [rangeLen_one]; omega
    unfold rangeList
    rw [hzero]
    rfl
  · intro hlt
    have hmem : ∀ i ∈ rangeList (s + 1) (latestIndex p + 1) 1, 0 ≤ i ∧ i < (ndp.size : Int) := by
      intro i hi
      have := rangeList_one_mem _ _ i hi
      omega
    have hread := mapExcept_ok ndp _ hmem
    have hlen : ((rangeList (s + 1) (latestIndex p + 1) 1).map
        (fun i => ndp.flat.getD i.toNat .nan)).length = (latestIndex p - s).toNat := by
      rw [List.length_map, rangeList_one_length]
      omega
    have hpay : getChangesPayload s p
        = (none, some ⟨s + 1, latestIndex p,
            (rangeList (s + 1) (latestIndex p + 1) 1).map
              (fun i => ndp.flat.getD i.toNat .nan)⟩) := by
      unfold getChangesPayload
      rw [hp]
      have hne : ((rangeList (s + 1) (latestIndex p + 1) 1).map
          (fun i => ndp.flat.getD i.toNat .nan)).isEmpty = false := by
        rcases hvv : (rangeList (s + 1) (latestIndex p + 1) 1).map
            (fun i => ndp.flat.getD i.toNat .nan) with _ | ⟨x, rest⟩
        · rw [hvv] at hlen
          simp at hlen
          omega
        · rw [hvv]
          rfl
      simp only [hread, hne]
      rfl
    have hbound : s + 1 + ((0 : Nat) : Int) + (((rangeList (s + 1) (latestIndex p + 1) 1).map
        (fun i => ndp.flat.getD i.toNat .nan)).length : Int) ≤ (ndq.size : Int) := by
      rw [hlen]
      have : ndq.size = ndp.size := by unfold NdArr.size; rw [hqs]
      rw [this]
      push_cast
      omega
    have happly := applyChangesGo_ok (latestIndex p)
      ((rangeList (s + 1) (latestIndex p + 1) 1).map (fun i => ndp.flat.getD i.toNat .nan))
      (s + 1) 0 q ndq hq (by push_cast; omega) hbound
    have hgo : applyChanges (s + 1) (latestIndex p)
        ((rangeList (s + 1) (latestIndex p + 1) 1).map (fun i => ndp.flat.getD i.toNat .nan)) q
        = applyChangesGo (s + 1) (latestIndex p) 0
          ((rangeList (s + 1) (latestIndex p + 1) 1).map (fun i => ndp.flat.getD i.toNat .nan))
          q := rfl
    refine ⟨hpay, ?_, ?_, ?_⟩
    · rw [hgo, happly]
    · rw [hgo, happly]
    · refine ⟨_, by rw [hgo, happly], ?_⟩
      intro k hk1 hk2
      have ha : (s + 1 + ((0 : Nat) : Int)).toNat + (k.toNat - (s + 1 + ((0 : Nat) : Int)).toNat)
          = k.toNat := by push_cast; omega
      have hj : k.toNat - (s + 1 + ((0 : Nat) : Int)).toNat < ((rangeList (s + 1)
          (latestIndex p + 1) 1).map (fun i => ndp.flat.getD i.toNat .nan)).length := by
        rw [hlen]; push_cast; omega
      have hlenq : (s + 1 + ((0 : Nat) : Int)).toNat + ((rangeList (s + 1)
          (latestIndex p + 1) 1).map (fun i => ndp.flat.getD i.toNat .nan)).length
          ≤ ndq.flat.length := by
        rw [hlen, hqw, hqs]
        have : ndp.ashape.prod = ndp.size := rfl
        rw [this]
        push_cast
        omega
      have hinside := overwriteFrom_getD_inside
        ((rangeList (s + 1) (latestIndex p + 1) 1).map (fun i => ndp.flat.getD i.toNat .nan))
        ((s + 1 + ((0 : Nat) : Int)).toNat) (k.toNat - (s + 1 + ((0 : Nat) : Int)).toNat)
        ndq.flat .nan hj hlenq
      rw [ha] at hinside
      rw [hinside]
      -- value j of the transmitted run is the producer value at s + 1 + j
      have hj2 : k.toNat - (s + 1 + ((0 : Nat) : Int)).toNat
          < (latestIndex p + 1 - (s + 1)).toNat := by push_cast; omega
      have hx := rangeList_one_getD (s + 1) (latestIndex p + 1)
        (k.toNat - (s + 1 + ((0 : Nat) : Int)).toNat) 0 hj2
      rw [List.getD_eq_getElem _ _ (by rw [rangeList_one_length]; push_cast at hj2 ⊢; omega)] at hx
      rw [List.getD_eq_getElem _ _ hj, List.getElem_map, hx]
      have hfin : (s + 1 + ((k.toNat - (s + 1 + ((0 : Nat) : Int)).toNat : Nat) : Int)).toNat
          = k.toNat := by push_cast; omega
      rw [hfin]

/-- Witness for C2: the spec's sync example — producer with save cursor 9
over values `0..9`, consumer fresh, sync cursor at 4. -/
theorem c2_round_trip_witness :
    exProducer.ndarray = some ⟨[10], (List.range 10).map (fun k => .val k)⟩ ∧
    (NdArr.flat ⟨[10], (List.range 10).map (fun k => .val k)⟩).length
      = (NdArr.ashape ⟨[10], (List.range 10).map (fun k => .val k)⟩).prod ∧
    exConsumer.ndarray = some ⟨[10], List.replicate 10 .nan⟩ ∧
    (NdArr.ashape ⟨[10], List.replicate 10 .nan⟩)
      = (NdArr.ashape ⟨[10], (List.range 10).map (fun k => .val k)⟩) ∧
    (NdArr.flat ⟨[10], List.replicate 10 .nan⟩).length
      = (NdArr.ashape ⟨[10], List.replicate 10 .nan⟩).prod ∧
    (-1 : Int) ≤ 4 ∧
    latestIndex exProducer
      ≤ ((NdArr.size ⟨[10], (List.range 10).map (fun k => .val k)⟩ : Nat) : Int) - 1 ∧
    ((latestIndex exProducer ≤ 4 → getChangesPayload 4 exProducer = (none, none)) ∧
     ((4 : Int) < latestIndex exProducer →
       getChangesPayload 4 exProducer
         = (none, some ⟨4 + 1, latestIndex exProducer,
             (rangeList (4 + 1) (latestIndex exProducer + 1) 1).map
               (fun i => (NdArr.flat ⟨[10], (List.range 10).map (fun k => .val k)⟩).getD
                 i.toNat .nan)⟩) ∧
       (applyChanges (4 + 1) (latestIndex exProducer)
           ((rangeList (4 + 1) (latestIndex exProducer + 1) 1).map
             (fun i => (NdArr.flat ⟨[10], (List.range 10).map (fun k => .val k)⟩).getD
               i.toNat .nan))
           exConsumer).1 = none ∧
       ((applyChanges (4 + 1) (latestIndex exProducer)
           ((rangeList (4 + 1) (latestIndex exProducer + 1) 1).map
             (fun i => (NdArr.flat ⟨[10], (List.range 10).map (fun k => .val k)⟩).getD
               i.toNat .nan))
           exConsumer).2).synced_index = some (latestIndex exProducer) ∧
       (∃ ndr, ((applyChanges (4 + 1) (latestIndex exProducer)
           ((rangeList (4 + 1) (latestIndex exProducer + 1) 1).map
             (fun i => (NdArr.flat ⟨[10], (List.range 10).map (fun k => .val k)⟩).getD
               i.toNat .nan))
           exConsumer).2).ndarray = some ndr ∧
         ∀ k : Int, 4 + 1 ≤ k → k ≤ latestIndex exProducer →
           ndr.flat.getD k.toNat .nan
             = (NdArr.flat ⟨[10], (List.range 10).map (fun k => .val k)⟩).getD k.toNat .nan))) :=
  ⟨rfl, by decide, by decide, rfl, by decide, by decide, by decide,
   c2_round_trip exProducer exConsumer 4
     ⟨[10], (List.range 10).map (fun k => .val k)⟩ ⟨[10], List.replicate 10 .nan⟩
     rfl (by decide) (by decide) (by decide) (by decide) (by decide) (by decide)⟩

/-! Helper lemmas about slice resolution and row-major flattening
(claims C3 and C5). -/

/-- A successful positive-step slice resolution yields a start in `[0, d]`
and a stop at most `d`. -/
theorem sliceIndices_pos_bounds (a? b? c? : Option Int) (d : Nat) (start stop step : Int)
    (h : sliceIndices a? b? c? d = .ok (start, stop, step)) (hstep : 0 < step) :
    0 ≤ start ∧ start ≤ (d : Int) ∧ stop ≤ (d : Int) := by
  unfold sliceIndices at h
  by_cases hc : c? = some 0
  · rw [if_pos hc] at h; cases h
  · rw [if_neg hc] at h
    have h1 : sliceResolve a?
        (if c?.getD 1 < 0 then sliceUpper (c?.getD 1) d else sliceLower (c?.getD 1))
        (sliceLower (c?.getD 1)) (sliceUpper (c?.getD 1) d) d = start :=
      congrArg (fun t : Int × Int × Int => t.1) (Except.ok.inj h)
    have h2 : sliceResolve b?
        (if c?.getD 1 < 0 then sliceLower (c?.getD 1) else sliceUpper (c?.getD 1) d)
        (sliceLower (c?.getD 1)) (sliceUpper (c?.getD 1) d) d = stop :=
      congrArg (fun t : Int × Int × Int => t.2.1) (Except.ok.inj h)
    have h3 : c?.getD 1 = step :=
      congrArg (fun t : Int × Int × Int => t.2.2) (Except.ok.inj h)
    rw [h3] at h1 h2
    have hneg : ¬ step < 0 := by omega
    rw [if_neg hneg] at h1 h2
    unfold sliceLower sliceUpper at h1 h2
    rw [if_neg hneg] at h1 h2
    unfold sliceResolve at h1 h2
    rcases a? with _ | sa <;> rcases b? with _ | sb <;>
      simp only [] at h1 h2 <;> subst h1 <;> subst h2 <;>
      split_ifs at * <;> omega

/-- The last-position formula of `__setitem__` equals the last realized
position of a non-empty positive-step range. -/
theorem slice_last_eq (start stop step : Int) (hstep : 0 < step) (hnon : start < stop) :
    start + ((stop - start - 1).fdiv step) * step
      = start + step * ((rangeLen start stop step : Int) - 1) := by
  have hfd : (stop - start - 1).fdiv step = (stop - start - 1) / step :=
    Int.fdiv_eq_ediv _ (by omega)
  have hlen : rangeLen start stop step = ((stop - start - 1) / step + 1).toNat := by
    unfold rangeLen
    rw [if_pos hstep]
    have harr : stop - start + step - 1 = (stop - start - 1) + 1 * step := by ring
    rw [harr, Int.fdiv_eq_ediv _ (by omega), Int.add_mul_ediv_right _ _ (by omega)]
  rw [hlen, hfd]
  have hq : 0 ≤ (stop - start - 1) / step := Int.ediv_nonneg (by omega) (by omega)
  have hcast : ((((stop - start - 1) / step + 1).toNat : Nat) : Int)
      = (stop - start - 1) / step + 1 := Int.toNat_of_nonneg (by omega)
  rw [hcast]
  ring

/-- The last-position formula stays within `[start, stop)` for a non-empty
positive-step slice. -/
theorem slice_last_bounds (start stop step : Int) (hstep : 0 < step) (hnon : start < stop) :
    start ≤ start + ((stop - start - 1).fdiv step) * step ∧
    start + ((stop - start - 1).fdiv step) * step < stop := by
  have hfd : (stop - start - 1).fdiv step = (stop - start - 1) / step :=
    Int.fdiv_eq_ediv _ (by omega)
  rw [hfd]
  constructor
  · have hq : 0 ≤ (stop - start - 1) / step := Int.ediv_nonneg (by omega) (by omega)
    have : 0 ≤ (stop - start - 1) / step * step := mul_nonneg hq (by omega)
    omega
  · have := Int.ediv_mul_le (stop - start - 1) (show step ≠ 0 by omega)
    omega

/-- Success characterization of the ravel: matching lengths, every entry in
range, and the row-major value. -/
theorem ravel_ok_iff (ixs : List Int) (sh : List Nat) (v : Int) :
    ravelMultiIndex ixs sh = .ok v ↔
    (ixs.length = sh.length ∧ (∀ p ∈ ixs.zip sh, 0 ≤ p.1 ∧ p.1 < (p.2 : Int)) ∧
      v = rowMajorFlat ixs sh) := by
  unfold ravelMultiIndex
  by_cases h1 : ixs.length = sh.length
  · rw [if_pos h1]
    by_cases h2 : (ixs.zip sh).all (fun p => decide (0 ≤ p.1) && decide (p.1 < (p.2 : Int))) = true
    · rw [if_pos h2]
      rw [List.all_eq_true] at h2
      constructor
      · intro h
        refine ⟨h1, fun p hp => ?_, (Except.ok.inj h).symm⟩
        have := h2 p hp
        simp only [Bool.and_eq_true, decide_eq_true_eq] at this
        exact this
      · rintro ⟨_, _, rfl⟩
        rfl
    · rw [if_neg h2]
      constructor
      · intro h; cases h
      · rintro ⟨_, hb, _⟩
        refine absurd ?_ h2
        rw [List.all_eq_true]
        intro p hp
        simp only [Bool.and_eq_true, decide_eq_true_eq]
        exact hb p hp
  · rw [if_neg h1]
    constructor
    · intro h; cases h
    · rintro ⟨h, _, _⟩; exact absurd h h1

/-- Bounds of the row-major fold: with in-range entries and a non-negative
accumulator, the result lies in `[acc * prod, (acc + 1) * prod - 1]`. -/
theorem rowMajorAux_bounds : ∀ (ixs : List Int) (sh : List Nat) (acc : Int),
    ixs.length = sh.length → (∀ p ∈ ixs.zip sh, 0 ≤ p.1 ∧ p.1 < (p.2 : Int)) → 0 ≤ acc →
    acc * (sh.prod : Int) ≤ rowMajorAux acc ixs sh ∧
    rowMajorAux acc ixs sh ≤ (acc + 1) * (sh.prod : Int) - 1 := by
  intro ixs
  induction ixs with
  | nil =>
    intro sh acc hlen _ hacc
    have : sh = [] := by
      cases sh with
      | nil => rfl
      | cons d ds => simp at hlen
    subst this
    simp [rowMajorAux]
  | cons i it ih =>
    intro sh acc hlen hb hacc
    cases sh with
    | nil => simp at hlen
    | cons d ds =>
      have hd : 0 ≤ i ∧ i < (d : Int) := hb (i, d) (by simp)
      have hacc2 : 0 ≤ acc * d + i := by
        have : 0 ≤ acc * (d : Int) := mul_nonneg hacc (by positivity)
        omega
      obtain ⟨l1, l2⟩ := ih ds (acc * d + i) (by simpa using hlen)
        (fun p hp => hb p (by simp [hp])) hacc2
      have hprod : (((d :: ds).prod : Nat) : Int) = (d : Int) * (ds.prod : Int) := by
        push_cast [List.prod_cons]
        ring
      constructor
      · have step1 : acc * ((d : Int) * (ds.prod : Int)) = (acc * d) * (ds.prod : Int) := by ring
        have step2 : (acc * d) * (ds.prod : Int) ≤ (acc * d + i) * (ds.prod : Int) :=
          mul_le_mul_of_nonneg_right (by omega) (by positivity)
        show acc * (((d :: ds).prod : Nat) : Int) ≤ rowMajorAux (acc * d + i) it ds
        rw [hprod]
        linarith [l1, step1, step2]
      · have hring : (acc + 1) * (d : Int) = acc * d + d := by ring
        have step3 : (acc * d + i + 1) * (ds.prod : Int) ≤ ((acc + 1) * d) * (ds.prod : Int) :=
          mul_le_mul_of_nonneg_right (by omega) (by positivity)
        have step4 : ((acc + 1) * d) * (ds.prod : Int) = (acc + 1) * ((d : Int) * (ds.prod : Int)) := by
          ring
        show rowMajorAux (acc * d + i) it ds ≤ (acc + 1) * (((d :: ds).prod : Nat) : Int) - 1
        rw [hprod, ← step4]
        linarith [l2, step3]

/-- Monotonicity of the row-major fold in both the accumulator and the
entries. -/
theorem rowMajorAux_mono : ∀ (sh : List Nat) (xs ys : List Int) (a b : Int),
    xs.length = sh.length → ys.length = sh.length → a ≤ b →
    (∀ p ∈ xs.zip ys, p.1 ≤ p.2) →
    rowMajorAux a xs sh ≤ rowMajorAux b ys sh := by
  intro sh
  induction sh with
  | nil =>
    intro xs ys a b hx hy hab _
    have hx0 : xs = [] := List.length_eq_zero.mp hx
    have hy0 : ys = [] := List.length_eq_zero.mp hy
    subst hx0; subst hy0
    exact hab
  | cons d ds ih =>
    intro xs ys a b hx hy hab hmem
    cases xs with
    | nil => simp at hx
    | cons x xt =>
      cases ys with
      | nil => simp at hy
      | cons y yt =>
        have hxy : x ≤ y := hmem (x, y) (by simp)
        show rowMajorAux (a * d + x) xt ds ≤ rowMajorAux (b * d + y) yt ds
        refine ih xt yt _ _ (by simpa using hx) (by simpa using hy) ?_
          (fun p hp => hmem p (by simp [hp]))
        have : a * (d : Int) ≤ b * (d : Int) := mul_le_mul_of_nonneg_right hab (by positivity)
        omega

/-- Members of a zip of two maps over the same list. -/
theorem mem_zip_map_map {α : Type} {f g : α → Int} : ∀ (sh : List α) (p : Int × Int),
    p ∈ (sh.map f).zip (sh.map g) → ∃ d ∈ sh, p = (f d, g d) := by
  intro sh
  induction sh with
  | nil => intro p hp; simp at hp
  | cons d ds ih =>
    intro p hp
    cases hp with
    | head => exact ⟨d, by simp⟩
    | tail _ hp =>
      obtain ⟨e, he, hpe⟩ := ih p hp
      exact ⟨e, by simp [he], hpe⟩

/-- Members of a zip of a map with the list itself. -/
theorem mem_zip_map_self {f : Nat → Int} : ∀ (sh : List Nat) (p : Int × Nat),
    p ∈ (sh.map f).zip sh → ∃ d ∈ sh, p = (f d, d) := by
  intro sh
  induction sh with
  | nil => intro p hp; simp at hp
  | cons d ds ih =>
    intro p hp
    cases hp with
    | head => exact ⟨d, by simp⟩
    | tail _ hp =>
      obtain ⟨e, he, hpe⟩ := ih p hp
      exact ⟨e, by simp [he], hpe⟩

/-- Constructive membership in the zip of a map with its base list. -/
theorem zip_map_self_mem {g : Nat → Int} : ∀ (L : List Nat) (d : Nat), d ∈ L →
    (g d, d) ∈ (L.map g).zip L := by
  intro L
  induction L with
  | nil => intro d hd; cases hd
  | cons e es ih =>
    intro d hd
    cases hd with
    | head => exact List.mem_cons_self _ _
    | tail _ hd => exact List.mem_cons_of_mem _ (ih d hd)

/-- Structure of the claimed minimum positions on a cons. -/
theorem specMins_cons (x : LoopIndex) (xs : List LoopIndex) (d : Nat) (ds : List Nat) :
    specMins (x :: xs) (d :: ds) = (specPair d x).1 :: specMins xs ds := rfl

/-- Structure of the claimed maximum positions on a cons. -/
theorem specMaxs_cons (x : LoopIndex) (xs : List LoopIndex) (d : Nat) (ds : List Nat) :
    specMaxs (x :: xs) (d :: ds) = (specPair d x).2 :: specMaxs xs ds := rfl

/-- The claimed positions of one well-behaved explicit entry are in range,
ordered min below max. -/
theorem specPair_bounds (d : Nat) (x : LoopIndex) (hx : goodIndex d x = true) :
    0 ≤ (specPair d x).1 ∧ (specPair d x).1 < (d : Int) ∧
    0 ≤ (specPair d x).2 ∧ (specPair d x).2 < (d : Int) ∧
    (specPair d x).1 ≤ (specPair d x).2 := by
  cases x with
  | int i =>
    simp only [goodIndex, Bool.and_eq_true, decide_eq_true_eq] at hx
    unfold specPair
    exact ⟨hx.1, hx.2, hx.1, hx.2, le_refl i⟩
  | slc a b c =>
    simp only [goodIndex] at hx
    rcases hsl : sliceIndices a b c d with e | ⟨st, sp, se⟩
    · rw [hsl] at hx; simp at hx
    · rw [hsl] at hx
      simp only [Bool.and_eq_true, decide_eq_true_eq] at hx
      obtain ⟨hse, hnon⟩ := hx
      obtain ⟨hb1, hb2, hb3⟩ := sliceIndices_pos_bounds a b c d st sp se hsl hse
      obtain ⟨hl1, hl2⟩ := slice_last_bounds st sp se hse hnon
      have hlast := slice_last_eq st sp se hse hnon
      simp only [specPair, hsl]
      refine ⟨hb1, by omega, by rw [← hlast]; omega, by rw [← hlast]; omega, by rw [← hlast]; omega⟩

/-- The resolution loop of `__setitem__`, on well-behaved entries, succeeds
and computes exactly the claimed per-entry min/max positions. -/
theorem resolveAux_good (sh : List Nat) : ∀ (ixs : List LoopIndex) (k : Nat),
    k + ixs.length ≤ sh.length →
    (∀ p ∈ ixs.zip (sh.drop k), goodIndex p.2 p.1 = true) →
    resolveMinMaxAux (some sh) ixs k
      = .ok ((ixs.zip (sh.drop k)).map (fun p => specPair p.2 p.1)) := by
  intro ixs
  induction ixs with
  | nil => intro k _ _; rfl
  | cons x xs ih =>
    intro k hlen hgood
    have hk : k < sh.length := by
      simp only [List.length_cons] at hlen
      omega
    have hdropk : sh.drop k = sh[k] :: sh.drop (k + 1) := List.drop_eq_getElem_cons hk
    have hgx : goodIndex sh[k] x = true := by
      apply hgood (x, sh[k])
      rw [hdropk]
      exact List.mem_cons_self _ _
    have htail : ∀ p ∈ xs.zip (sh.drop (k + 1)), goodIndex p.2 p.1 = true := by
      intro p hp
      apply hgood
      rw [hdropk]
      exact List.mem_cons_of_mem _ hp
    have ihk := ih (k + 1) (by simp only [List.length_cons] at hlen; omega) htail
    cases x with
    | int i =>
      simp only [resolveMinMaxAux, ihk]
      rw [hdropk]
      rfl
    | slc a b c =>
      have hget : sh.get? k = some sh[k] := by
        rw [List.get?_eq_getElem?]
        exact List.getElem?_eq_getElem hk
      simp only [goodIndex] at hgx
      rcases hsl : sliceIndices a b c sh[k] with e | ⟨st, sp, se⟩
      · rw [hsl] at hgx; simp at hgx
      · rw [hsl] at hgx
        simp only [Bool.and_eq_true, decide_eq_true_eq] at hgx
        obtain ⟨hse, hnon⟩ := hgx
        simp only [resolveMinMaxAux, hget, hsl, ihk]
        rw [hdropk]
        simp only [List.zip_cons_cons, List.map_cons, specPair, hsl]
        rw [slice_last_eq st sp se hse hnon]

/-- The resolution loop yields ordered pairs when every slice entry is
positive-step and non-empty. -/
theorem resolveAux_le (sh : List Nat) : ∀ (ixs : List LoopIndex) (k : Nat) (l : List (Int × Int)),
    slicesOkAux sh ixs k = true →
    resolveMinMaxAux (some sh) ixs k = .ok l →
    ∀ p ∈ l, p.1 ≤ p.2 := by
  intro ixs
  induction ixs with
  | nil =>
    intro k l _ hok p hp
    have : ([] : List (Int × Int)) = l := Except.ok.inj hok
    rw [← this] at hp
    cases hp
  | cons x xs ih =>
    intro k l hslc hok p hp
    cases x with
    | int i =>
      simp only [resolveMinMaxAux] at hok
      simp only [slicesOkAux] at hslc
      rcases hres : resolveMinMaxAux (some sh) xs (k + 1) with e | l2
      · simp only [hres] at hok; cases hok
      · simp only [hres] at hok
        have hl : (i, i) :: l2 = l := Except.ok.inj hok
        rw [← hl] at hp
        cases hp with
        | head => exact le_refl i
        | tail _ hp2 => exact ih (k + 1) l2 hslc hres p hp2
    | slc a b c =>
      simp only [resolveMinMaxAux] at hok
      simp only [slicesOkAux] at hslc
      rcases hget : sh.get? k with _ | d
      · simp only [hget] at hok; cases hok
      · simp only [hget] at hok hslc
        rcases hsl : sliceIndices a b c d with e | ⟨st, sp, se⟩
        · simp only [hsl] at hok; cases hok
        · simp only [hsl] at hok hslc
          simp only [Bool.and_eq_true, decide_eq_true_eq] at hslc
          obtain ⟨⟨hse, hnon⟩, hrest⟩ := hslc
          rcases hres : resolveMinMaxAux (some sh) xs (k + 1) with e | l2
          · simp only [hres] at hok; cases hok
          · simp only [hres] at hok
            have hl : (st, st + ((sp - st - 1).fdiv se) * se) :: l2 = l := Except.ok.inj hok
            rw [← hl] at hp
            cases hp with
            | head => exact (slice_last_bounds st sp se hse hnon).1
            | tail _ hp2 => exact ih (k + 1) l2 hrest hres p hp2

/-- Lengths and bounds of the claimed full min/max position lists, for a
well-behaved index expression against positive dimensions. -/
theorem spec_bounds : ∀ (sh : List Nat) (ixs : List LoopIndex),
    ixs.length ≤ sh.length →
    (∀ p ∈ ixs.zip sh, goodIndex p.2 p.1 = true) →
    (∀ d ∈ sh, 0 < d) →
    (specMins ixs sh).length = sh.length ∧
    (specMaxs ixs sh).length = sh.length ∧
    (∀ p ∈ (specMins ixs sh).zip sh, 0 ≤ p.1 ∧ p.1 < (p.2 : Int)) ∧
    (∀ p ∈ (specMaxs ixs sh).zip sh, 0 ≤ p.1 ∧ p.1 < (p.2 : Int)) ∧
    (∀ p ∈ (specMins ixs sh).zip (specMaxs ixs sh), p.1 ≤ p.2) := by
  intro sh
  induction sh with
  | nil =>
    intro ixs hlen _ _
    have hix : ixs = [] := List.length_eq_zero.mp (by simpa using hlen)
    subst hix
    refine ⟨rfl, rfl, ?_, ?_, ?_⟩ <;> (intro p hp; cases hp)
  | cons d ds ih =>
    intro ixs hlen hgood hpos
    have hd : 0 < d := hpos d (by simp)
    cases ixs with
    | nil =>
      have hmins : specMins [] (d :: ds) = (d :: ds).map (fun _ => (0 : Int)) := rfl
      have hmaxs : specMaxs [] (d :: ds) = (d :: ds).map (fun (e : Nat) => (e : Int) - 1) := rfl
      rw [hmins, hmaxs]
      refine ⟨by rw [List.length_map], by rw [List.length_map], ?_, ?_, ?_⟩
      · intro p hp
        obtain ⟨e, he, rfl⟩ := mem_zip_map_self _ p hp
        have := hpos e he
        constructor <;> [omega; (push_cast; omega)]
      · intro p hp
        obtain ⟨e, he, rfl⟩ := mem_zip_map_self _ p hp
        have := hpos e he
        constructor <;> push_cast <;> omega
      · intro p hp
        obtain ⟨e, he, rfl⟩ := mem_zip_map_map _ p hp
        have := hpos e he
        push_cast
        omega
    | cons x xs =>
      have hgx : goodIndex d x = true := hgood (x, d) (by simp)
      obtain ⟨hp1, hp2, hp3, hp4, hp5⟩ := specPair_bounds d x hgx
      obtain ⟨ih1, ih2, ih3, ih4, ih5⟩ := ih xs (by simpa using hlen)
        (fun p hp => hgood p (by simp [hp])) (fun e he => hpos e (by simp [he]))
      rw [specMins_cons, specMaxs_cons]
      refine ⟨by simpa [ih1], by simpa [ih2], ?_, ?_, ?_⟩
      · intro p hp
        cases hp with
        | head => exact ⟨hp1, hp2⟩
        | tail _ hp2t => exact ih3 p hp2t
      · intro p hp
        cases hp with
        | head => exact ⟨hp3, hp4⟩
        | tail _ hp2t => exact ih4 p hp2t
      · intro p hp
        cases hp with
        | head => exact hp5
        | tail _ hp2t => exact ih5 p hp2t

/-- The index-fill padding of `flat_index` as an append. -/
theorem padded_eq (A : List Int) (g : Nat → Int) (sh : List Nat) (hlen : A.length ≤ sh.length) :
    (if A.length < sh.length then A ++ (sh.map g).drop A.length else A)
      = A ++ (sh.drop A.length).map g := by
  by_cases h : A.length < sh.length
  · rw [if_pos h, List.map_drop]
  · rw [if_neg h]
    have he : A.length = sh.length := by omega
    rw [he, List.drop_length]
    simp

/-- On a well-behaved index expression, the explicit-entry resolution of
`__setitem__` succeeds with exactly the claimed per-entry positions. -/
theorem resolve_good (ixs : List LoopIndex) (sh : List Nat)
    (hlen : ixs.length ≤ sh.length)
    (hgood : ∀ p ∈ ixs.zip sh, goodIndex p.2 p.1 = true) :
    resolveMinMax ixs (some sh) = .ok (specExplicit ixs sh) :=
  resolveAux_good sh ixs 0 (by omega) hgood

/-- Length of the explicit-entry position list. -/
theorem specExplicit_length (ixs : List LoopIndex) (sh : List Nat)
    (hlen : ixs.length ≤ sh.length) :
    (specExplicit ixs sh).length = ixs.length := by
  unfold specExplicit
  rw [List.length_map, List.length_zip]
  omega

/-- Flattening the claimed minimum positions with the zero fill. -/
theorem flatIndex_spec_min (ixs : List LoopIndex) (sh : List Nat)
    (hlen : ixs.length ≤ sh.length)
    (hgood : ∀ p ∈ ixs.zip sh, goodIndex p.2 p.1 = true)
    (hpos : ∀ d ∈ sh, 0 < d) :
    flatIndex ((specExplicit ixs sh).map (fun p => p.1)) (sh.map (fun _ => (0 : Int))) (some sh)
      = .ok (specMinFlat ixs sh) := by
  obtain ⟨hL1, _, hB1, _, _⟩ := spec_bounds sh ixs hlen hgood hpos
  have hAlen : ((specExplicit ixs sh).map (fun p => p.1)).length = ixs.length := by
    rw [List.length_map]
    exact specExplicit_length ixs sh hlen
  simp only [flatIndex]
  rw [padded_eq ((specExplicit ixs sh).map (fun p => p.1)) (fun _ => (0 : Int)) sh
    (by rw [hAlen]; exact hlen), hAlen]
  rw [ravel_ok_iff]
  exact ⟨hL1, hB1, rfl⟩

/-- Flattening the claimed maximum positions with the `dim - 1` fill. -/
theorem flatIndex_spec_max (ixs : List LoopIndex) (sh : List Nat)
    (hlen : ixs.length ≤ sh.length)
    (hgood : ∀ p ∈ ixs.zip sh, goodIndex p.2 p.1 = true)
    (hpos : ∀ d ∈ sh, 0 < d) :
    flatIndex ((specExplicit ixs sh).map (fun p => p.2))
        (sh.map (fun (d : Nat) => (d : Int) - 1)) (some sh)
      = .ok (specMaxFlat ixs sh) := by
  obtain ⟨_, hL2, _, hB2, _⟩ := spec_bounds sh ixs hlen hgood hpos
  have hAlen : ((specExplicit ixs sh).map (fun p => p.2)).length = ixs.length := by
    rw [List.length_map]
    exact specExplicit_length ixs sh hlen
  simp only [flatIndex]
  rw [padded_eq ((specExplicit ixs sh).map (fun p => p.2)) (fun (d : Nat) => (d : Int) - 1) sh
    (by rw [hAlen]; exact hlen), hAlen]
  rw [ravel_ok_iff]
  exact ⟨hL2, hB2, rfl⟩

/-- Unpacking the well-formedness of an initialized array. -/
theorem wf_fields (st : DataArray) (sh : List Nat) (hwf : Wf st) (hsh : st.shape = some sh) :
    ∃ nd, st.ndarray = some nd ∧ nd.ashape = sh ∧ nd.flat.length = sh.prod ∧
      st.min_indices = sh.map (fun _ => (0 : Int)) ∧
      st.max_indices = sh.map (fun (d : Nat) => (d : Int) - 1) := by
  unfold Wf at hwf
  cases hnd : st.ndarray with
  | none =>
    rw [hnd, hsh] at hwf
    exact hwf.elim
  | some nd =>
    rw [hnd, hsh] at hwf
    exact ⟨nd, rfl, hwf.1, hwf.2.1, hwf.2.2.1, hwf.2.2.2⟩

/-! Claim C3. -/

/-- C3 counterexample: negative-step slice writes do not get the claimed
covering-interval update. `arr[3:0:-1] = ...` (addressing positions 3, 2, 1
of a length-4 array) makes the tracking computation raise ValueError — the
last-position formula produces -1, which `ravel_multi_index` rejects — so
`modified_range` stays empty instead of becoming the covering interval
`(1, 3)`; `arr[3:1:-1] = ...` (addressing positions 3, 2) succeeds — the
formula produces 0, which is in range — but records the inverted pair
`(3, 0)` instead of the covering interval `(2, 3)`. -/
theorem c3_counterexample :
    rangeList 3 0 (-1) = [3, 2, 1] ∧
    (setItem (.single (.slc (some 3) (some 0) (some (-1)))) (.arr [.val 9, .val 9, .val 9])
      exArr4).1 = some .valueError ∧
    ((setItem (.single (.slc (some 3) (some 0) (some (-1)))) (.arr [.val 9, .val 9, .val 9])
      exArr4).2).modified_range = none ∧
    rangeList 3 1 (-1) = [3, 2] ∧
    (setItem (.single (.slc (some 3) (some 1) (some (-1)))) (.arr [.val 9, .val 9])
      exArr4).1 = none ∧
    ((setItem (.single (.slc (some 3) (some 1) (some (-1)))) (.arr [.val 9, .val 9])
      exArr4).2).modified_range = some (3, 0) := by decide

/-- C3 (amended): for every item write on an initialized array whose
explicit indices are in-range integers or positive-step slices addressing
at least one element (and whose dimensions are positive), the per-dimension
minimum and maximum addressed positions are computed as claimed — slice
first/last realized position, `0` and `dim - 1` for unaddressed dimensions
— both are converted to flat row-major indices, and `modified_range`
becomes the covering interval of its previous value and that flat interval
(whether or not the buffer write itself then succeeds). The two concrete
examples of the claim hold as stated. -/
theorem c3_set_modified_range (st : DataArray) (sh : List Nat) (ix : Indices) (v : PyVal)
    (hwf : Wf st) (hsh : st.shape = some sh)
    (hgood : goodIndices (ixList ix) sh = true) :
    ((setItem ix v st).2).modified_range
      = some (combineMR st.modified_range (specMinFlat (ixList ix) sh)
          (specMaxFlat (ixList ix) sh)) ∧
    ((setItem (.tuple [.int 1, .int 2]) (.scalar (.val 7)) exArr23).2).modified_range
      = some (5, 5) ∧
    (setItem (.single (.slc (some 1) (some 3) none)) (.arr [.val 9, .val 9]) exArr4).1 = none ∧
    ((setItem (.single (.slc (some 1) (some 3) none)) (.arr [.val 9, .val 9])
      exArr4).2).modified_range = some (1, 2) := by
  refine ⟨?_, by decide, by decide, by decide⟩
  have hg := hgood
  simp only [goodIndices, Bool.and_eq_true, decide_eq_true_eq, List.all_eq_true] at hg
  obtain ⟨⟨hlen, hall⟩, hpos⟩ := hg
  obtain ⟨nd, hnd, hashape, hflat, hmin, hmax⟩ := wf_fields st sh hwf hsh
  simp only [setItem, hsh, resolve_good (ixList ix) sh hlen hall, hmin, hmax,
    flatIndex_spec_min (ixList ix) sh hlen hall hpos,
    flatIndex_spec_max (ixList ix) sh hlen hall hpos,
    updateModifiedRange_eq]
  split
  all_goals rfl

/-- Witness for C3 at the claim's own example: writing `[1, 2]` of an
initialized 2×3 array. -/
theorem c3_set_modified_range_witness :
    Wf exArr23 ∧ exArr23.shape = some [2, 3] ∧
    goodIndices (ixList (.tuple [.int 1, .int 2])) [2, 3] = true ∧
    (((setItem (.tuple [.int 1, .int 2]) (.scalar (.val 7)) exArr23).2).modified_range
       = some (combineMR exArr23.modified_range
           (specMinFlat (ixList (.tuple [.int 1, .int 2])) [2, 3])
           (specMaxFlat (ixList (.tuple [.int 1, .int 2])) [2, 3])) ∧
     ((setItem (.tuple [.int 1, .int 2]) (.scalar (.val 7)) exArr23).2).modified_range
       = some (5, 5) ∧
     (setItem (.single (.slc (some 1) (some 3) none)) (.arr [.val 9, .val 9]) exArr4).1 = none ∧
     ((setItem (.single (.slc (some 1) (some 3) none)) (.arr [.val 9, .val 9])
       exArr4).2).modified_range = some (1, 2)) :=
  ⟨by decide, rfl, by decide,
   c3_set_modified_range exArr23 [2, 3] (.tuple [.int 1, .int 2]) (.scalar (.val 7))
     (by decide) rfl (by decide)⟩

/-! Helper lemmas for the invariant claim (C5). -/

/-- Well-formedness destructured (shape included). -/
theorem wf_destruct (st : DataArray) (hwf : Wf st) :
    ∃ sh nd, st.shape = some sh ∧ st.ndarray = some nd ∧ nd.ashape = sh ∧
      nd.flat.length = sh.prod ∧
      st.min_indices = sh.map (fun _ => (0 : Int)) ∧
      st.max_indices = sh.map (fun (d : Nat) => (d : Int) - 1) := by
  unfold Wf at hwf
  cases hnd : st.ndarray with
  | none => rw [hnd] at hwf; exact hwf.elim
  | some nd =>
    cases hsh : st.shape with
    | none => rw [hnd, hsh] at hwf; exact hwf.elim
    | some sh =>
      rw [hnd, hsh] at hwf
      exact ⟨sh, nd, rfl, rfl, hwf.1, hwf.2.1, hwf.2.2.1, hwf.2.2.2⟩

/-- The invariant transports along equal dirty range and buffer size. -/
theorem MrInv_of_eq (st1 st2 : DataArray)
    (hmr : st1.modified_range = st2.modified_range)
    (hsz : arraySize st1 = arraySize st2) (h : MrInv st2) : MrInv st1 := by
  unfold MrInv at h ⊢
  rw [hmr, hsz]
  exact h

/-- A scalar broadcast write preserves the flat length. -/
theorem foldl_set_length : ∀ (xs : List Int) (f : List PyFloat) (x : PyFloat),
    (xs.foldl (fun f i => f.set i.toNat x) f).length = f.length := by
  intro xs
  induction xs with
  | nil => intro f x; rfl
  | cons i it ih =>
    intro f x
    show (it.foldl (fun f i => f.set i.toNat x) (f.set i.toNat x)).length = f.length
    rw [ih, List.length_set]

/-- An elementwise write preserves the flat length. -/
theorem foldl_set_pairs_length : ∀ (ps : List (Int × PyFloat)) (f : List PyFloat),
    (ps.foldl (fun f p => f.set p.1.toNat p.2) f).length = f.length := by
  intro ps
  induction ps with
  | nil => intro f; rfl
  | cons q qt ih =>
    intro f
    show (qt.foldl (fun f p => f.set p.1.toNat p.2) (f.set q.1.toNat q.2)).length = f.length
    rw [ih, List.length_set]

/-- A successful numpy assignment keeps the buffer shape and flat length. -/
theorem ndarraySetItem_length (ixs : List LoopIndex) (v : PyVal) (nd? : Option NdArr)
    (nd2 : NdArr) (h : ndarraySetItem ixs v nd? = .ok nd2) :
    ∃ nd, nd? = some nd ∧ nd2.ashape = nd.ashape ∧ nd2.flat.length = nd.flat.length := by
  unfold ndarraySetItem at h
  cases nd? with
  | none => cases h
  | some nd =>
    refine ⟨nd, rfl, ?_⟩
    rcases hreg : regionPositionsAux ixs nd.ashape with e | pls
    · exact absurd h (by simp [hreg])
    · simp only [hreg] at h
      cases v with
      | scalar x =>
        have h2 := Except.ok.inj h
        rw [← h2]
        exact ⟨rfl, foldl_set_length _ _ _⟩
      | arr vs =>
        by_cases hrs : (List.map (fun p => p.2.length) (List.filter (fun p => p.1) pls))
            = [vs.length]
        · simp only [hrs, if_pos] at h
          have h2 := Except.ok.inj h
          rw [← h2]
          exact ⟨rfl, foldl_set_pairs_length _ _⟩
        · simp [hrs] at h

/-- A successful flat write keeps the buffer shape and flat length. -/
theorem writeFlat_ok_length (nd? : Option NdArr) (i : Int) (v : PyFloat) (nd2 : NdArr)
    (h : writeFlat nd? i v = .ok nd2) :
    ∃ nd, nd? = some nd ∧ nd2.ashape = nd.ashape ∧ nd2.flat.length = nd.flat.length := by
  unfold writeFlat at h
  cases nd? with
  | none => cases h
  | some nd =>
    refine ⟨nd, rfl, ?_⟩
    have h2 : (if 0 ≤ i ∧ i < (nd.size : Int) then
        Except.ok ({ nd with flat := nd.flat.set i.toNat v } : NdArr)
      else Except.error PyErr.valueError) = Except.ok nd2 := h
    by_cases hin : 0 ≤ i ∧ i < (nd.size : Int)
    · rw [if_pos hin] at h2
      have h3 := Except.ok.inj h2
      rw [← h3]
      exact ⟨rfl, List.length_set _ _ _⟩
    · rw [if_neg hin] at h2
      cases h2

/-- The `apply_changes` write loop keeps the dirty range and the buffer
size. -/
theorem applyChangesGo_mr_size (a b : Int) : ∀ (vs : List PyFloat) (k : Nat) (st : DataArray),
    ((applyChangesGo a b k vs st).2).modified_range = st.modified_range ∧
    arraySize ((applyChangesGo a b k vs st).2) = arraySize st := by
  intro vs
  induction vs with
  | nil => intro k st; exact ⟨rfl, rfl⟩
  | cons v rest ih =>
    intro k st
    simp only [applyChangesGo]
    rcases hw : writeFlat st.ndarray (a + k) v with e | nd2
    · exact ⟨rfl, rfl⟩
    · obtain ⟨nd, hnd, _, hlen⟩ := writeFlat_ok_length _ _ _ _ hw
      obtain ⟨ih1, ih2⟩ := ih (k + 1) { st with ndarray := some nd2 }
      refine ⟨ih1, ?_⟩
      rw [ih2]
      unfold arraySize
      rw [hnd]
      simpa using hlen

/-- Flat length of the preset-broadcast buffer built by `nest`. -/
theorem flatten_replicate_length : ∀ (n : Nat) (l : List PyFloat),
    (List.flatten (List.replicate n l)).length = n * l.length := by
  intro n
  induction n with
  | zero => intro l; simp
  | succ m ih =>
    intro l
    show (l ++ List.flatten (List.replicate m l)).length = (m + 1) * l.length
    rw [List.length_append, ih]
    ring

/-- Splitting a zip along an append of the first component. -/
theorem zip_append_take_drop (A B : List Int) (sh : List Nat) (n : Nat)
    (hA : A.length = n) (hn : n ≤ sh.length) :
    (A ++ B).zip sh = (A.zip (sh.take n)) ++ (B.zip (sh.drop n)) := by
  conv_lhs => rw [← List.take_append_drop n sh]
  exact List.zip_append (by rw [hA, List.length_take]; omega)

/-- A well-behaved item write (every slice positive-step and non-empty, on
a well-formed state satisfying the invariant) preserves the invariant,
whatever the outcome of the buffer write. -/
theorem setItem_inv (st : DataArray) (hwf : Wf st) (hinv : MrInv st)
    (ix : Indices) (v : PyVal) (hslc : slicesOk (ixList ix) (st.shape.getD []) = true) :
    MrInv (setItem ix v st).2 := by
  obtain ⟨sh, nd, hsh, hnd, hashape, hflat, hmin, hmax⟩ := wf_destruct st hwf
  rw [hsh, Option.getD_some] at hslc
  simp only [setItem, hsh, hmin, hmax]
  rcases hres : resolveMinMax (ixList ix) (some sh) with e | pairs
  · simp only [hres]; exact hinv
  · simp only [hres]
    rcases hminr : flatIndex (pairs.map fun p => p.1) (sh.map (fun _ => (0 : Int)))
        (some sh) with e | minLi
    · simp only [hminr]; exact hinv
    · simp only [hminr]
      rcases hmaxr : flatIndex (pairs.map fun p => p.2)
          (sh.map (fun (d : Nat) => (d : Int) - 1)) (some sh) with e | maxLi
      · simp only [hmaxr]; exact hinv
      · simp only [hmaxr, updateModifiedRange_eq]
        have hminr2 : ravelMultiIndex
            (if (pairs.map fun p => p.1).length < sh.length then
              (pairs.map fun p => p.1)
                ++ (sh.map (fun _ => (0 : Int))).drop (pairs.map fun p => p.1).length
             else (pairs.map fun p => p.1)) sh = .ok minLi := hminr
        have hmaxr2 : ravelMultiIndex
            (if (pairs.map fun p => p.2).length < sh.length then
              (pairs.map fun p => p.2)
                ++ (sh.map (fun (d : Nat) => (d : Int) - 1)).drop
                    (pairs.map fun p => p.2).length
             else (pairs.map fun p => p.2)) sh = .ok maxLi := hmaxr
        have hnle : pairs.length ≤ sh.length := by
          by_cases hlt : (pairs.map fun p => p.1).length < sh.length
          · rw [List.length_map] at hlt; omega
          · rw [if_neg hlt] at hminr2
            obtain ⟨hL, _, _⟩ := (ravel_ok_iff _ _ _).mp hminr2
            rw [List.length_map] at hL
            omega
        rw [padded_eq (pairs.map fun p => p.1) (fun _ => (0 : Int)) sh
          (by rw [List.length_map]; exact hnle)] at hminr2
        rw [padded_eq (pairs.map fun p => p.2) (fun (d : Nat) => (d : Int) - 1) sh
          (by rw [List.length_map]; exact hnle)] at hmaxr2
        rw [List.length_map] at hminr2 hmaxr2
        obtain ⟨hLmin, hBmin, hVmin⟩ := (ravel_ok_iff _ _ _).mp hminr2
        obtain ⟨hLmax, hBmax, hVmax⟩ := (ravel_ok_iff _ _ _).mp hmaxr2
        have hle_pairs : ∀ p ∈ pairs, p.1 ≤ p.2 :=
          resolveAux_le sh (ixList ix) 0 pairs hslc hres
        have hpadspos : ∀ d ∈ sh.drop pairs.length, 0 ≤ (d : Int) - 1 := by
          intro d hd
          have hmem : ((d : Int) - 1, d) ∈ ((pairs.map fun p => p.2)
              ++ ((sh.drop pairs.length).map (fun (d : Nat) => (d : Int) - 1))).zip sh := by
            rw [zip_append_take_drop _ _ sh pairs.length (List.length_map _ _) hnle]
            exact List.mem_append.mpr (Or.inr (zip_map_self_mem _ d hd))
          exact (hBmax _ hmem).1
        have helem : ∀ p ∈ ((pairs.map fun p => p.1)
            ++ ((sh.drop pairs.length).map (fun _ => (0 : Int)))).zip
              ((pairs.map fun p => p.2)
                ++ ((sh.drop pairs.length).map (fun (d : Nat) => (d : Int) - 1))),
            p.1 ≤ p.2 := by
          intro p hp
          rw [List.zip_append (by rw [List.length_map, List.length_map])] at hp
          rcases List.mem_append.mp hp with hp2 | hp2
          · obtain ⟨q, hq, rfl⟩ := mem_zip_map_map pairs p hp2
            exact hle_pairs q hq
          · obtain ⟨d, hd, rfl⟩ := mem_zip_map_map _ p hp2
            simpa using hpadspos d hd
        have hMM : minLi ≤ maxLi := by
          rw [hVmin, hVmax]
          exact rowMajorAux_mono sh _ _ 0 0 hLmin hLmax (le_refl 0) helem
        have h0 : 0 ≤ minLi := by
          rw [hVmin]
          have := (rowMajorAux_bounds _ sh 0 hLmin hBmin (le_refl 0)).1
          simpa using this
        have hUB : maxLi ≤ ((sh.prod : Nat) : Int) - 1 := by
          rw [hVmax]
          have := (rowMajorAux_bounds _ sh 0 hLmax hBmax (le_refl 0)).2
          simpa using this
        have hgen : ∀ st2 : DataArray,
            st2.modified_range = some (combineMR st.modified_range minLi maxLi) →
            arraySize st2 = ((sh.prod : Nat) : Int) → MrInv st2 := by
          intro st2 hm2 hs2
          have harr : arraySize st = ((sh.prod : Nat) : Int) := by
            simp only [arraySize, hnd, hflat]
          have hinv2 := hinv
          unfold MrInv at hinv2 ⊢
          rcases hm : st.modified_range with _ | ⟨lo, hi⟩
          · rw [hm] at hm2
            simp only [hm2, combineMR, hs2]
            omega
          · rw [hm] at hm2 hinv2
            rw [harr] at hinv2
            simp only [hm2, combineMR, hs2]
            omega
        rcases hw : ndarraySetItem (ixList ix) v st.ndarray with e | nd2
        · simp only [hw]
          refine hgen _ rfl ?_
          simp only [arraySize, hnd, hflat]
        · simp only [hw]
          obtain ⟨nd0, hnd0, hshp2, hlen2⟩ := ndarraySetItem_length _ _ _ _ hw
          have hnd0nd : nd0 = nd := by
            rw [hnd] at hnd0
            exact (Option.some.inj hnd0).symm
          refine hgen _ rfl ?_
          simp only [arraySize]
          rw [hlen2, hnd0nd, hflat]

/-- Installing an explicitly bounded modified range yields the invariant. -/
theorem MrInv_set_mr (st : DataArray) (lo hi : Int) (h1 : lo ≤ hi) (h2 : 0 ≤ lo)
    (h3 : hi ≤ arraySize st - 1) : MrInv { st with modified_range := some (lo, hi) } :=
  ⟨h1, h2, h3⟩

/-- `mark_saved` preserves the modified-range invariant. -/
theorem markSaved_inv (i : Int) (st : DataArray) (hinv : MrInv st) : MrInv (markSaved i st) := by
  unfold markSaved
  cases hm : st.modified_range with
  | none =>
    simp only [hm]
    exact MrInv_of_eq _ st hm.symm rfl hinv
  | some p =>
    cases p with
    | mk lo hi =>
      have hinv2 : lo ≤ hi ∧ 0 ≤ lo ∧ hi ≤ arraySize st - 1 := by
        unfold MrInv at hinv; rw [hm] at hinv; exact hinv
      simp only [hm]
      by_cases hhi : hi ≤ i
      · simp only [if_pos hhi]
        trivial
      · simp only [if_neg hhi]
        exact MrInv_set_mr { st with last_saved_index := some i } (max lo (i + 1)) hi
          (by omega) (by omega) hinv2.2.2

/-- `clear_save` preserves the invariant when the recorded save cursor (if
any) lies within the buffer bounds. -/
theorem clearSave_inv (st : DataArray) (hinv : MrInv st)
    (hcur : ∀ v, st.last_saved_index = some v → 0 ≤ v ∧ v ≤ arraySize st - 1) :
    MrInv (clearSave st) := by
  unfold clearSave
  cases hl : st.last_saved_index with
  | none =>
    simp only [hl]
    exact MrInv_of_eq _ _ rfl rfl hinv
  | some v =>
    obtain ⟨hv0, hv1⟩ := hcur v hl
    simp only [hl, updateModifiedRange_eq]
    cases hm : st.modified_range with
    | none =>
      simp only [hm, combineMR]
      exact MrInv_set_mr { st with last_saved_index := none } 0 v hv0 (le_refl 0) hv1
    | some p =>
      cases p with
      | mk lo hi =>
        have hinv2 : lo ≤ hi ∧ 0 ≤ lo ∧ hi ≤ arraySize st - 1 := by
          unfold MrInv at hinv; rw [hm] at hinv; exact hinv
        simp only [hm, combineMR]
        exact MrInv_set_mr { st with last_saved_index := none } (min lo 0) (max hi v)
          (by omega) (by omega) (show max hi v ≤ arraySize st - 1 by omega)

/-- `apply_changes` never touches the modified range, so the invariant is
preserved whatever the write outcome. -/
theorem applyChanges_inv (st : DataArray) (hinv : MrInv st) (a b : Int)
    (vs : List PyFloat) : MrInv (applyChanges a b vs st).2 := by
  obtain ⟨h1, h2⟩ := applyChangesGo_mr_size a b vs 0 st
  exact MrInv_of_eq _ _ h1 h2 hinv

/-- The preset tail of `init_data` establishes the invariant for
non-degenerate (positive element count, length-consistent) data. -/
theorem initPreset_inv (d : NdArr) (st : DataArray)
    (hd : d.flat.length = d.ashape.prod) (hpos : 0 < d.ashape.prod) :
    MrInv (initPreset d st).2 := by
  unfold initPreset
  simp only [MrInv, setIndexBounds, arraySize, NdArr.size]
  refine ⟨?_, ?_, ?_⟩ <;> omega

/-- `init_data()` without data never changes the state of a well-formed
array. -/
theorem initData_none_inv (st : DataArray) (hwf : Wf st) (hinv : MrInv st) :
    MrInv (initData none st).2 := by
  obtain ⟨sh, nd, hsh, hnd, -, -, -, -⟩ := wf_destruct st hwf
  have hst : (initData none st).2 = st := by
    simp only [initData, hnd]
    split <;> rfl
  rw [hst]
  exact hinv

/-- `init_data(data)` preserves the invariant for non-degenerate data on a
well-formed array. -/
theorem initData_some_inv (st : DataArray) (hwf : Wf st) (hinv : MrInv st) (d : NdArr)
    (hd : d.flat.length = d.ashape.prod) (hpos : 0 < d.ashape.prod) :
    MrInv (initData (some d) st).2 := by
  obtain ⟨sh, nd, hsh, -, -, -, -, -⟩ := wf_destruct st hwf
  simp only [initData, hsh]
  by_cases hda : d.ashape = sh
  · rw [if_neg (by simp [hda])]
    exact initPreset_inv d st hd hpos
  · rw [if_pos hda]
    exact hinv

/-- `nest` preserves the invariant for a well-formed array with a non-empty
buffer and a positive new outer size, whatever the branch taken. -/
theorem nest_inv (st : DataArray) (hwf : Wf st) (hinv : MrInv st)
    (size : Nat) (ai : Option Int) (sarr : Option SetRef)
    (hszpos : 0 < size) (hstpos : 0 < arraySize st) :
    MrInv (nest size ai sarr st).2 := by
  obtain ⟨sh, nd, hsh, hnd, hashape, hflat, -, -⟩ := wf_destruct st hwf
  have hprodpos : 0 < sh.prod := by
    simp only [arraySize, hnd, hflat] at hstpos
    omega
  unfold nest
  by_cases h1 : st.ndarray.isSome ∧ st.preset = false
  · rw [if_pos h1]; exact hinv
  · rw [if_neg h1]
    by_cases h2 : sarr.isNone ∧ st.set_arrays ≠ []
    · rw [if_pos h2]; exact hinv
    · rw [if_neg h2]
      simp only [hsh]
      cases ai with
      | none =>
        by_cases hp : st.preset = true
        · simp only [hp, if_pos, hnd]
          have hlen : (List.flatten (List.replicate size nd.flat)).length
              = size * sh.prod := by
            rw [flatten_replicate_length, hflat]
          have hmul : 0 < size * sh.prod := Nat.mul_pos hszpos hprodpos
          simp only [MrInv, setIndexBounds, arraySize, NdArr.size, List.prod_cons, hlen]
          refine ⟨?_, ?_, ?_⟩ <;> omega
        · simp only [hp]
          simp only [Bool.false_eq_true, if_false]
          exact MrInv_of_eq _ st rfl rfl hinv
      | some a =>
        by_cases hp : st.preset = true
        · simp only [hp, if_pos, hnd]
          have hlen : (List.flatten (List.replicate size nd.flat)).length
              = size * sh.prod := by
            rw [flatten_replicate_length, hflat]
          have hmul : 0 < size * sh.prod := Nat.mul_pos hszpos hprodpos
          simp only [MrInv, setIndexBounds, arraySize, NdArr.size, List.prod_cons, hlen]
          refine ⟨?_, ?_, ?_⟩ <;> omega
        · simp only [hp]
          simp only [Bool.false_eq_true, if_false]
          exact MrInv_of_eq _ st rfl rfl hinv

/-- Constructing without preset data and with a shape leaves the modified
range unset, so the invariant holds vacuously. -/
theorem mk_shape_inv (sh : List Nat) (sets : List SetRef) (acts : List Int) (b : Bool) :
    MrInv (mkDataArray (some sh) sets acts b none).2 := trivial

/-- Constructing without preset data and without a shape (shape defaults to
the empty tuple) leaves the modified range unset. -/
theorem mk_noshape_inv (sets : List SetRef) (acts : List Int) (b : Bool) :
    MrInv (mkDataArray none sets acts b none).2 := trivial

/-- Constructing with non-degenerate preset data establishes the invariant
(the constructor defers to `init_data`). -/
theorem mk_preset_inv (shp : Option (List Nat)) (sets : List SetRef) (acts : List Int)
    (b : Bool) (d : NdArr) (hd : d.flat.length = d.ashape.prod) (hpos : 0 < d.ashape.prod) :
    MrInv (mkDataArray shp sets acts b (some d)).2 := by
  cases shp with
  | none => exact initPreset_inv d _ hd hpos
  | some sh =>
    simp only [mkDataArray, initData]
    by_cases hda : d.ashape = sh
    · rw [if_neg (by simp [hda])]
      exact initPreset_inv d _ hd hpos
    · rw [if_pos hda]
      trivial

/-- Claim C5 (counterexample): the invariant "whenever modified_range is
non-empty with bounds (low, high) then low ≤ high, 0 ≤ low and
high ≤ size − 1" is NOT preserved by every operation. On the initialized
length-4 array (which satisfies the invariant), the empty-slice write
`arr[2:2] = []` succeeds (returns no error) yet records the inverted
modified range (2, 1), violating low ≤ high. -/
theorem c5_counterexample :
    MrInv exArr4 ∧
    (setItem (.single (.slc (some 2) (some 2) none)) (.arr []) exArr4).1 = none ∧
    ((setItem (.single (.slc (some 2) (some 2) none)) (.arr []) exArr4).2).modified_range
      = some (2, 1) ∧
    ¬ MrInv (setItem (.single (.slc (some 2) (some 2) none)) (.arr []) exArr4).2 :=
  ⟨by decide, by decide, by decide, by decide⟩

/-- Claim C5 (amended): the modified-range invariant — whenever
modified_range is non-empty with bounds (low, high), then low ≤ high,
0 ≤ low, and high ≤ size − 1 — is preserved by every modelled operation on
a well-formed array already satisfying it, under the conditions the
counterexamples force: mark_saved unconditionally; clear_save when the
recorded save cursor lies within the buffer; set when every explicit index
is in range and every slice has positive step and addresses at least one
element; get_changes and apply_changes unconditionally (including on
failure); init_data without data; init_data / construction with preset
data of consistent positive size; nest with positive outer size on a
non-empty buffer; construction without preset data. -/
theorem c5_invariant (st : DataArray) (hwf : Wf st) (hinv : MrInv st) :
    MrInvPreserved st :=
  ⟨fun i => markSaved_inv i st hinv,
   fun hcur => clearSave_inv st hinv hcur,
   fun ix v hslc => setItem_inv st hwf hinv ix v hslc,
   fun _ => hinv,
   fun a b vs => applyChanges_inv st hinv a b vs,
   initData_none_inv st hwf hinv,
   fun d hd hpos => initData_some_inv st hwf hinv d hd hpos,
   fun size ai sarr hs hp => nest_inv st hwf hinv size ai sarr hs hp,
   fun sh sets acts b => mk_shape_inv sh sets acts b,
   fun sets acts b => mk_noshape_inv sets acts b,
   fun shp sets acts b d hd hpos => mk_preset_inv shp sets acts b d hd hpos⟩

/-- The C5 theorem applied to the concrete length-4 array. -/
theorem c5_invariant_witness :
    Wf exArr4 ∧ MrInv exArr4 ∧ MrInvPreserved exArr4 :=
  ⟨by decide, by decide, c5_invariant exArr4 (by decide) (by decide)⟩
